import Mathlib

/-!
Verification of the relief mapping-element core (`relief/schema/mappings.py`)
and validator library (`relief/validation.py`).

Python objects that flow through the mapping code (raw inputs, coerced
values, the `Unspecified` / `NotUnserializable` sentinel singletons) are
embedded as the inductive `Raw`.  Python `dict` objects are embedded as
insertion-ordered association lists (CPython dicts preserve insertion
order, and `collections.OrderedDict` does so by contract); assignment to
an existing key keeps its position, which `dict_set` mirrors.  Exceptions
(`KeyError`, `TypeError`) are embedded as `Except PyErr`.
-/

set_option maxHeartbeats 1000000

namespace Relief

/-- A Python value as seen by the mapping core: integers, strings,
mapping-shaped objects (`dict` / `OrderedDict`, as ordered key-value pair
lists), and the two sentinel singletons from `relief.constants`.
Equality of `Raw` models Python `==`, which on the sentinels coincides
with identity. -/
inductive Raw where
  | int : Int → Raw
  | str : String → Raw
  | pairs : List (Raw × Raw) → Raw
  | unspecified : Raw
  | notUnserializable : Raw
deriving Repr

mutual

/-- Boolean equality on `Raw` (Python `==` on the embedded values). -/
def Raw.beq : Raw → Raw → Bool
  | Raw.int a, Raw.int b => a == b
  | Raw.str a, Raw.str b => a == b
  | Raw.pairs a, Raw.pairs b => Raw.beqPairs a b
  | Raw.unspecified, Raw.unspecified => true
  | Raw.notUnserializable, Raw.notUnserializable => true
  | _, _ => false

/-- Boolean equality on dict payloads. -/
def Raw.beqPairs : List (Raw × Raw) → List (Raw × Raw) → Bool
  | [], [] => true
  | (k, v) :: r, (k', v') :: s => Raw.beq k k' && Raw.beq v v' && Raw.beqPairs r s
  | _, _ => false

end

mutual

theorem Raw.beq_iff : (a b : Raw) → (Raw.beq a b = true ↔ a = b)
  | Raw.int a, Raw.int b => by simp [Raw.beq]
  | Raw.str a, Raw.str b => by simp [Raw.beq]
  | Raw.pairs a, Raw.pairs b => by simp [Raw.beq, Raw.beqPairs_iff a b]
  | Raw.unspecified, Raw.unspecified => by simp [Raw.beq]
  | Raw.notUnserializable, Raw.notUnserializable => by simp [Raw.beq]
  | Raw.int _, Raw.str _ => by simp [Raw.beq]
  | Raw.int _, Raw.pairs _ => by simp [Raw.beq]
  | Raw.int _, Raw.unspecified => by simp [Raw.beq]
  | Raw.int _, Raw.notUnserializable => by simp [Raw.beq]
  | Raw.str _, Raw.int _ => by simp [Raw.beq]
  | Raw.str _, Raw.pairs _ => by simp [Raw.beq]
  | Raw.str _, Raw.unspecified => by simp [Raw.beq]
  | Raw.str _, Raw.notUnserializable => by simp [Raw.beq]
  | Raw.pairs _, Raw.int _ => by simp [Raw.beq]
  | Raw.pairs _, Raw.str _ => by simp [Raw.beq]
  | Raw.pairs _, Raw.unspecified => by simp [Raw.beq]
  | Raw.pairs _, Raw.notUnserializable => by simp [Raw.beq]
  | Raw.unspecified, Raw.int _ => by simp [Raw.beq]
  | Raw.unspecified, Raw.str _ => by simp [Raw.beq]
  | Raw.unspecified, Raw.pairs _ => by simp [Raw.beq]
  | Raw.unspecified, Raw.notUnserializable => by simp [Raw.beq]
  | Raw.notUnserializable, Raw.int _ => by simp [Raw.beq]
  | Raw.notUnserializable, Raw.str _ => by simp [Raw.beq]
  | Raw.notUnserializable, Raw.pairs _ => by simp [Raw.beq]
  | Raw.notUnserializable, Raw.unspecified => by simp [Raw.beq]

theorem Raw.beqPairs_iff : (a b : List (Raw × Raw)) → (Raw.beqPairs a b = true ↔ a = b)
  | [], [] => by simp [Raw.beqPairs]
  | [], _ :: _ => by simp [Raw.beqPairs]
  | _ :: _, [] => by simp [Raw.beqPairs]
  | (k, v) :: r, (k', v') :: s => by
    simp [Raw.beqPairs, Raw.beq_iff k k', Raw.beq_iff v v', Raw.beqPairs_iff r s]

end

instance : DecidableEq Raw := fun a b =>
  decidable_of_iff (Raw.beq a b = true) (Raw.beq_iff a b)

/-- Python exceptions raised by the mapping core. -/
inductive PyErr where
  | keyError : Raw → PyErr
  | typeError : String → PyErr
deriving DecidableEq, Repr

/-- Reified validator instances from `relief/validation.py` (the three the
claims exercise): `ShorterThan(upperbound)`, `WithinRange(start, end)` and
`ContainedIn(options)`. -/
inductive VSpec where
  | shorterThan : Nat → VSpec
  | withinRange : Int → Int → VSpec
  | containedIn : List Raw → VSpec
deriving DecidableEq, Repr

/-- An element node (`relief.schema.core.Element` is outside the mapping
core sources; its state is modelled from the spec: a node holds a raw
input value, a coerced value, its attached validators, an ordered error
list and a tri-state validity flag). -/
structure Element where
  raw_value : Raw
  value : Raw
  validators : List VSpec
  errors : List String
  is_valid : Option Bool
deriving DecidableEq, Repr

/-- The pair holder `_Value` from mappings.py: one mapping entry, pairing
a key element with a value element. -/
structure _Value where
  key : Element
  value : Element
deriving DecidableEq, Repr

/-- State of a `Mapping` element (`Dict` / `OrderedDict`): the container's
raw value, the backing dict from raw storage key to pair holder, and the
container's own validators / errors / validity (Element state). -/
structure Mapping where
  raw_value : Raw
  entries : List (Raw × _Value)
  validators : List VSpec
  errors : List String
  is_valid : Option Bool
deriving DecidableEq, Repr

/-- The open configuration bag threaded to validators. -/
def Context := List (String × Raw)

/-! ### Backing-dict primitives (Python `dict` semantics) -/

/-- `d[k]` lookup in the backing dict: first binding with the key. -/
def dict_get {α : Type} (es : List (Raw × α)) (k : Raw) : Option α :=
  match es with
  | [] => none
  | (k', v) :: rest => if k' = k then some v else dict_get rest k

/-- `d[k] = v`: replace in place if the key is present (keeping its
position, as CPython dicts and `OrderedDict` do), else append. -/
def dict_set {α : Type} (es : List (Raw × α)) (k : Raw) (v : α) : List (Raw × α) :=
  match es with
  | [] => [(k, v)]
  | (k', v') :: rest =>
    if k' = k then (k, v) :: rest else (k', v') :: dict_set rest k v

/-- `del d[k]`: remove the first binding with the key. -/
def dict_del {α : Type} (es : List (Raw × α)) (k : Raw) : List (Raw × α) :=
  match es with
  | [] => []
  | (k', v') :: rest =>
    if k' = k then rest else (k', v') :: dict_del rest k

/-- `dict(pairlist)`: insert every pair in order, later pairs overwriting
earlier ones for an equal key. -/
def dict_of_pairs (l : List (Raw × Raw)) : List (Raw × Raw) :=
  l.foldl (fun acc p => dict_set acc p.1 p.2) []

/-! ### Scalar element schemas -/

/-- A member schema slot: a scalar element type, given by its coercion
function and the validators attached to elements it constructs. -/
structure ElementSchema where
  unserialize : Raw → Raw
  validators : List VSpec

/-- Modelled from the spec: constructing an element from a raw value
(calling the schema, `member_schema[i](x)`) records the raw value and the
schema's coercion of it; an `Unspecified` raw value yields the
`Unspecified` coerced value ("no raw input was ever supplied"). -/
def mk_element (s : ElementSchema) (r : Raw) : Element :=
  { raw_value := r
    value := if r = Raw.unspecified then Raw.unspecified else s.unserialize r
    validators := s.validators
    errors := []
    is_valid := none }

/-- Modelled from the spec: the `Unicode` scalar schema coerces strings to
themselves and anything else to `NotUnserializable` (identity-preserving
on strings). -/
def Unicode : ElementSchema :=
  { unserialize := fun r =>
      match r with
      | Raw.str s => Raw.str s
      | _ => Raw.notUnserializable
    validators := [] }

/-- Decimal-digit accumulator for `strToInt`. -/
def parseDigits : List Char → Nat → Option Nat
  | [], acc => some acc
  | c :: cs, acc =>
    if '0' ≤ c ∧ c ≤ '9' then parseDigits cs (acc * 10 + (c.toNat - 48))
    else none

/-- Python `int(string)` on decimal literals (an optional minus sign and
decimal digits); everything else fails. -/
def strToInt : String → Option Int := fun s =>
  match s.data with
  | [] => none
  | '-' :: cs =>
    match cs with
    | [] => none
    | _ :: _ => (parseDigits cs 0).map fun n => -(n : Int)
  | cs => (parseDigits cs 0).map fun n => (n : Int)

/-- Modelled from the spec: the `Integer` scalar schema keeps integers and
converts numeric strings to integers ("numeric string → number"); any
other raw value is `NotUnserializable`. -/
def Integer : ElementSchema :=
  { unserialize := fun r =>
      match r with
      | Raw.int n => Raw.int n
      | Raw.str s =>
        match strToInt s with
        | some n => Raw.int n
        | none => Raw.notUnserializable
      | _ => Raw.notUnserializable
    validators := [] }

/-! ### Validators (`relief/validation.py`) -/

/-- `Validator.is_unusable` (validation.py lines 36-40): the element's
value is the `Unspecified` or the `NotUnserializable` sentinel. -/
def is_unusable (e : Element) : Bool :=
  e.value = Raw.unspecified || e.value = Raw.notUnserializable

/-- `Validator.note_error` (validation.py lines 31-34): append the
(substituted) message to `element.errors`. -/
def note_error (e : Element) (msg : String) : Element :=
  { e with errors := e.errors ++ [msg] }

/-- `ShorterThan.message` with the `upperbound` substitution applied. -/
def ShorterThan_message (upperbound : Nat) : String :=
  "Must be shorter than " ++ toString upperbound ++ "."

/-- `WithinRange.message` with the `start` / `end` substitutions applied. -/
def WithinRange_message (start stop : Int) : String :=
  "Must be greater than " ++ toString start ++ " and shorter than " ++ toString stop ++ "."

/-- Python `len(x)`: defined for strings (character count) and dicts
(entry count); calling it on other values embedded here raises
`TypeError`. -/
def pyLen : Raw → Option Nat
  | Raw.str s => some s.length
  | Raw.pairs l => some l.length
  | _ => none

/-- `ShorterThan.validate` (validation.py lines 120-129): fail with the
message if the element is unusable or `len(element.value) >=
upperbound`, else pass.  The Python `or` short-circuits, so `len` is
only applied to usable values; a usable value with no `len` raises
`TypeError`. -/
def ShorterThan_validate (upperbound : Nat) (e : Element) : Except PyErr (Bool × Element) :=
  if is_unusable e then Except.ok (false, note_error e (ShorterThan_message upperbound))
  else
    match pyLen e.value with
    | none => Except.error (PyErr.typeError "object of this type has no len()")
    | some n =>
      if upperbound ≤ n then Except.ok (false, note_error e (ShorterThan_message upperbound))
      else Except.ok (true, e)

/-- `WithinRange.validate` (validation.py lines 262-271): pass iff the
element is usable and `start < element.value < end`; comparing a
non-integer usable value against the integer bounds raises `TypeError`
(Python 3 unorderable types). -/
def WithinRange_validate (start stop : Int) (e : Element) : Except PyErr (Bool × Element) :=
  if is_unusable e then Except.ok (false, note_error e (WithinRange_message start stop))
  else
    match e.value with
    | Raw.int v =>
      if start < v ∧ v < stop then Except.ok (true, e)
      else Except.ok (false, note_error e (WithinRange_message start stop))
    | _ => Except.error (PyErr.typeError "unorderable types")

/-- `ContainedIn.validate` (validation.py lines 194-198): fail with
"Not a valid value." iff `element.value not in options`.  There is no
`is_unusable` guard, and Python membership (`in`, via `==`) never raises
here, so the test also runs on unusable values. -/
def ContainedIn_validate (options : List Raw) (e : Element) : Except PyErr (Bool × Element) :=
  if e.value ∈ options then Except.ok (true, e)
  else Except.ok (false, note_error e "Not a valid value.")

/-- Dispatch a reified validator instance. -/
def runValidator (v : VSpec) (e : Element) (_ctx : Context) : Except PyErr (Bool × Element) :=
  match v with
  | VSpec.shorterThan ub => ShorterThan_validate ub e
  | VSpec.withinRange lo hi => WithinRange_validate lo hi e
  | VSpec.containedIn opts => ContainedIn_validate opts e

/-- Run a list of validators in order against one element, ANDing their
results and accumulating their error notes. -/
def runValidators (vl : List VSpec) (e : Element) (ctx : Context) : Except PyErr (Bool × Element) :=
  match vl with
  | [] => Except.ok (true, e)
  | v :: rest => do
    let (b, e') ← runValidator v e ctx
    let (b2, e'') ← runValidators rest e' ctx
    return (b && b2, e'')

/-- Modelled from the spec: the default `Element.validate` (the external
Element/Container substrate) recomputes `is_valid` as the logical AND of
the element's own attached validators and returns it. -/
def Element.validate (e : Element) (ctx : Context) : Except PyErr (Bool × Element) :=
  (runValidators e.validators e ctx).map fun p => (p.1, { p.2 with is_valid := some p.1 })

/-- The validity boolean an element's `validate` call produces. -/
def Element.validateB (e : Element) (ctx : Context) : Except PyErr Bool :=
  (Element.validate e ctx).map fun p => p.1

/-- Modelled from the spec: the default (non-container) `Element.traverse`
yields the element itself as the sole leaf, tagged with the given path
prefix (the empty path when no prefix is given). -/
def Element.traverse (e : Element) (pfx : Option (List Nat)) : List (List Nat × Element) :=
  [(pfx.getD [], e)]

/-! ### Mapping read semantics (mappings.py lines 27-75) -/

/-- `Mapping.__iter__` (lines 43-45): iterate the backing dict's raw keys
and yield each entry's key element. -/
def Mapping.iterKeys (m : Mapping) : List Element :=
  m.entries.map fun kv => kv.2.key

/-- `Mapping.__getitem__` (lines 34-35): fetch the pair holder stored
under `key` in the backing dict and return its value element; `none`
embeds the `KeyError` of a missing key. -/
def Mapping.getValueElem (m : Mapping) (key : Raw) : Option Element :=
  (dict_get m.entries key).map fun ph => ph.value

/-- Left-to-right traversal of a list by a fallible producer: the
materialisation of a Python generator that raises at the first failing
item.  (Consumed generators yield their prefix before the raise; an
embedded `Except` keeps only the raise, which is all the callers here
observe.) -/
def exceptMapList {α β : Type} (f : α → Except PyErr β) : List α → Except PyErr (List β)
  | [] => Except.ok []
  | a :: rest => do
    let b ← f a
    let bs ← exceptMapList f rest
    return b :: bs

/-- `Mapping.items` (lines 53-54): `((key, self[key.value]) for key in
self)` — for each key element, look the entry up by the key element's
coerced value (not the raw storage key) and pair the two elements.  A
failed lookup raises `KeyError`. -/
def Mapping.items (m : Mapping) : Except PyErr (List (Element × Element)) :=
  exceptMapList (fun ke =>
    match Mapping.getValueElem m ke.value with
    | some ve => Except.ok (ke, ve)
    | none => Except.error (PyErr.keyError ke.value)) (Mapping.iterKeys m)

/-- `Mapping.values` (lines 50-51): `(self[key.value] for key in self)`. -/
def Mapping.values (m : Mapping) : Except PyErr (List Element) :=
  exceptMapList (fun ke =>
    match Mapping.getValueElem m ke.value with
    | some ve => Except.ok ve
    | none => Except.error (PyErr.keyError ke.value)) (Mapping.iterKeys m)

/-! ### MutableMapping write semantics (mappings.py lines 78-124) -/

/-- `MutableMapping.__setitem__` (lines 79-83): store, under the raw key,
a `_Value` pair holder of fresh elements built by the member schemas. -/
def MutableMapping.setitem (ks vs : ElementSchema) (m : Mapping) (k v : Raw) : Mapping :=
  { m with entries := dict_set m.entries k ⟨mk_element ks k, mk_element vs v⟩ }

/-- `MutableMapping.pop` (lines 96-108): more than one fallback argument
raises `TypeError`; a present key is removed from the backing dict and
its value element returned; an absent key returns the value schema's
coercion of the fallback when one is given, else re-raises `KeyError`. -/
def MutableMapping.pop (vs : ElementSchema) (m : Mapping) (key : Raw) (args : List Raw) :
    Except PyErr (Element × Mapping) :=
  if args.length > 1 then
    Except.error (PyErr.typeError ("pop expected at most 2 arguments, got " ++
      toString (args.length + 1)))
  else
    match dict_get m.entries key with
    | some ph => Except.ok (ph.value, { m with entries := dict_del m.entries key })
    | none =>
      match args with
      | a :: _ => Except.ok (mk_element vs a, m)
      | [] => Except.error (PyErr.keyError key)

/-- `MutableMapping.update` (lines 110-124): more than one positional
source raises `TypeError`; otherwise every (key, value) pair of the
positional source, then of the keyword overrides, is applied in order via
`self[key] = value`.  Both a key-enumerating object and an iterable of
pairs are embedded as a pair list, which is exactly the sequence the
source's two branches produce. -/
def MutableMapping.update (ks vs : ElementSchema) (m : Mapping)
    (args : List (List (Raw × Raw))) (kwargs : List (String × Raw)) : Except PyErr Mapping :=
  if args.length > 1 then
    Except.error (PyErr.typeError ("update expected at most 1 argument, got " ++
      toString args.length))
  else
    let mappings := args ++ [kwargs.map fun p => (Raw.str p.1, p.2)]
    Except.ok (mappings.foldl
      (fun acc ml => ml.foldl (fun a p => MutableMapping.setitem ks vs a p.1 p.2) acc) m)

/-! ### Dict / OrderedDict concrete projection (mappings.py lines 127-248) -/

/-- `Dict.unserialize` (lines 142-147): `dict(raw_value)`, with `TypeError`
mapped to `NotUnserializable` (embedded as `none`).  Of the `Raw`
constructors only dict-shaped values convert; `dict()` of an integer or a
sentinel raises `TypeError`.  (A Python string is iterable and fails this
conversion differently — an uncaught `ValueError` for non-empty strings —
but no claim exercises that input.) -/
def Dict.unserialize : Raw → Option (List (Raw × Raw))
  | Raw.pairs l => some (dict_of_pairs l)
  | _ => none

/-- The loop of the `Dict.value` property (lines 155-160) over the lazily
produced `items()` pairs: pull `(key, self[key.value])` for one key
element at a time (a failed lookup raises `KeyError` at that point),
return `NotUnserializable` as soon as either element of a produced pair
has an unserializable value, else record `result[key.value] =
value.value` and continue. -/
def Dict.valueLoop (m : Mapping) : List Element → List (Raw × Raw) → Except PyErr Raw
  | [], result => Except.ok (Raw.pairs result)
  | ke :: rest, result =>
    match Mapping.getValueElem m ke.value with
    | none => Except.error (PyErr.keyError ke.value)
    | some ve =>
      if ke.value = Raw.notUnserializable ∨ ve.value = Raw.notUnserializable then
        Except.ok Raw.notUnserializable
      else Dict.valueLoop m rest (dict_set result ke.value ve.value)

/-- `Dict.value` (lines 149-160): `Unspecified` raw value gives
`Unspecified`; a non-dict raw value gives `NotUnserializable`; otherwise
the freshly built mapping of coerced keys to coerced values via
`Dict.valueLoop`. -/
def Dict.value (m : Mapping) : Except PyErr Raw :=
  match m.raw_value with
  | Raw.pairs _ => Dict.valueLoop m (Mapping.iterKeys m) []
  | Raw.unspecified => Except.ok Raw.unspecified
  | _ => Except.ok Raw.notUnserializable

/-- `Dict.set` (lines 167-175): record the raw value, clear all entries,
and unless the raw value is `Unspecified`, unserialize it and on success
repopulate via `update` with the one unserialized mapping (one positional
source, so `update`'s `TypeError` branch is unreachable).  The
`_raw_value` bookkeeping belongs to the external Container raw-value
property; modelled from the spec: `set(rawValue)` records `rawValue`
verbatim. -/
def Dict.set (ks vs : ElementSchema) (m : Mapping) (raw : Raw) : Mapping :=
  let cleared : Mapping := { m with raw_value := raw, entries := [] }
  if raw = Raw.unspecified then cleared
  else
    match Dict.unserialize raw with
    | none => cleared
    | some l =>
      match MutableMapping.update ks vs cleared [l] [] with
      | Except.ok m' => m'
      | Except.error _ => cleared

/-- `OrderedDict.unserialize` (lines 187-192): identical to
`Dict.unserialize` in this embedding, since plain dicts and
`collections.OrderedDict` are both ordered pair lists here. -/
def OrderedDict.unserialize : Raw → Option (List (Raw × Raw)) := Dict.unserialize

/-- `OrderedDict.value` (lines 198-209): textually the same computation
as `Dict.value` with an `OrderedDict` result, which this embedding
represents identically. -/
def OrderedDict.value : Mapping → Except PyErr Raw := Dict.value

/-- `OrderedDict.set` (lines 216-224): textually the same computation as
`Dict.set`. -/
def OrderedDict.set : ElementSchema → ElementSchema → Mapping → Raw → Mapping := Dict.set

/-- `OrderedDict.__reversed__` (lines 229-231): the key elements in
reverse backing-dict order (most recently inserted first). -/
def OrderedDict.reversedKeys (m : Mapping) : List Element :=
  m.entries.reverse.map fun kv => kv.2.key

/-- `OrderedDict.pop` (lines 240-248): a present key's value element is
returned and its entry deleted; an absent key returns the value schema's
coercion of the default when given, else raises `KeyError`.  (`value =
self[key]; del self[key]` on a present key is the fetch-then-delete of
the stored pair holder's value element.) -/
def OrderedDict.pop (vs : ElementSchema) (m : Mapping) (key : Raw) (default : Option Raw) :
    Except PyErr (Element × Mapping) :=
  match dict_get m.entries key with
  | some ph => Except.ok (ph.value, { m with entries := dict_del m.entries key })
  | none =>
    match default with
    | none => Except.error (PyErr.keyError key)
    | some d => Except.ok (mk_element vs d, m)

/-- `OrderedDict.popitem` (lines 233-238): an empty container raises
`KeyError`; otherwise take the first key element of `reversed(self)`
(`last=True`) or of `iter(self)` (`last=False`) and remove its entry via
`self.pop(key.value)` — a lookup by the key element's coerced value. -/
def OrderedDict.popitem (vs : ElementSchema) (m : Mapping) (last : Bool) :
    Except PyErr ((Element × Element) × Mapping) :=
  if m.entries.isEmpty then Except.error (PyErr.keyError (Raw.str "dictionary is empty"))
  else
    match (if last then OrderedDict.reversedKeys m else Mapping.iterKeys m) with
    | [] => Except.error (PyErr.keyError (Raw.str "dictionary is empty"))
    | key :: _ =>
      (OrderedDict.pop vs m key.value none).map fun p => ((key, p.1), p.2)

/-! ### Validation and traversal of a mapping (mappings.py lines 56-75) -/

/-- Write a validated key element back into the entry stored under the
given raw key (in Python the key element is mutated in place). -/
def dict_setKeyElem (es : List (Raw × _Value)) (rk : Raw) (ke : Element) : List (Raw × _Value) :=
  match es with
  | [] => []
  | (k', ph) :: rest =>
    if k' = rk then (k', { ph with key := ke }) :: rest
    else (k', ph) :: dict_setKeyElem rest rk ke

/-- Write a validated value element back into the entry stored under the
given raw key. -/
def dict_setValElem (es : List (Raw × _Value)) (rk : Raw) (ve : Element) : List (Raw × _Value) :=
  match es with
  | [] => []
  | (k', ph) :: rest =>
    if k' = rk then (k', { ph with value := ve }) :: rest
    else (k', ph) :: dict_setValElem rest rk ve

/-- The loop of `Mapping.validate` (lines 60-62) over the lazily produced
`items()` pairs: for each raw key in iteration order, fetch the entry's
key element and the lookup `self[key.value]`, run both elements'
`validate` (whose updates land on the stored elements), and accumulate
`is_valid &= ...`. -/
def Mapping.validateStep (ctx : Context) : List Raw → Mapping → Bool → Except PyErr (Bool × Mapping)
  | [], m, acc => Except.ok (acc, m)
  | rk :: rest, m, acc =>
    match dict_get m.entries rk with
    | none => Except.error (PyErr.keyError rk)
    | some ph =>
      match Mapping.getValueElem m ph.key.value with
      | none => Except.error (PyErr.keyError ph.key.value)
      | some ve => do
        let (bk, ke') ← Element.validate ph.key ctx
        let (bv, ve') ← Element.validate ve ctx
        let es1 := dict_setKeyElem m.entries rk ke'
        let es2 := dict_setValElem es1 ph.key.value ve'
        Mapping.validateStep ctx rest { m with entries := es2 } (acc && bk && bv)

/-- Modelled from the spec: the external `Container.validate`
(`super(Mapping, self).validate(context)`, line 63) runs the container's
own attached validators against the container element, ANDing their
results; a validator reads the container's coerced `value` projection and
appends to the container's `errors`.  With no attached validators nothing
accesses `value`, so nothing can raise. -/
def Container.validate (m : Mapping) (ctx : Context) : Except PyErr (Bool × List String) :=
  match m.validators with
  | [] => Except.ok (true, m.errors)
  | _ => do
    let v ← Dict.value m
    let e0 : Element := ⟨m.raw_value, v, m.validators, m.errors, m.is_valid⟩
    let (b, e') ← runValidators m.validators e0 ctx
    return (b, e'.errors)

/-- `Mapping.validate` (lines 56-64): re-initialise `is_valid` to `True`,
AND in every key element's and every value element's `validate` over the
`items()` iteration, AND in the container's own validators via
`super().validate(context)`, store and return the aggregate.  (On the
success path the intermediate `is_valid &=` states are overwritten by the
final aggregate, which is what this embedding records.) -/
def Mapping.validate (m : Mapping) (ctx : Context) : Except PyErr (Bool × Mapping) := do
  let (acc, m1) ← Mapping.validateStep ctx (m.entries.map fun kv => kv.1)
      { m with is_valid := some true } true
  let (b2, errs2) ← Container.validate m1 ctx
  return (acc && b2, { m1 with errors := errs2, is_valid := some (acc && b2) })

/-- `Mapping.traverse` (lines 66-75): for the i-th `items()` pair, extend
the prefix (`[i]` when no prefix was given, `prefix + [i]` otherwise) and
yield the key element's traversal under `... + [0]` followed by the value
element's traversal under `... + [1]`. -/
def Mapping.traverse (m : Mapping) (pfx : Option (List Nat)) :
    Except PyErr (List (List Nat × Element)) := do
  let its ← Mapping.items m
  return its.enum.flatMap fun ip =>
    let currentPfx := match pfx with | none => [ip.1] | some p => p ++ [ip.1]
    Element.traverse ip.2.1 (some (currentPfx ++ [0])) ++
      Element.traverse ip.2.2 (some (currentPfx ++ [1]))

/-! ### Well-formedness predicates -/

/-- The implicit precondition of the coerced-key lookups: every stored
key element's coerced value equals its raw storage key. -/
def lookupSafe (m : Mapping) : Prop :=
  ∀ p ∈ m.entries, p.2.key.value = p.1

/-- The backing dict's raw keys are pairwise distinct (an invariant of
every state built through `__setitem__`). -/
def keysNodup (m : Mapping) : Prop :=
  (m.entries.map fun kv => kv.1).Nodup

instance (m : Mapping) : Decidable (lookupSafe m) := by
  unfold lookupSafe; infer_instance

instance (m : Mapping) : Decidable (keysNodup m) := by
  unfold keysNodup; infer_instance

/-- A fresh, never-set mapping element (raw value `Unspecified`, no
entries, no validators): the state a bare `Dict()` / `OrderedDict()`
starts from. -/
def initMapping : Mapping :=
  { raw_value := Raw.unspecified, entries := [], validators := [], errors := [], is_valid := none }

/-! ### Lemmas about the backing-dict primitives -/

theorem dict_get_set_self {α : Type} (es : List (Raw × α)) (k : Raw) (v : α) :
    dict_get (dict_set es k v) k = some v := by
  induction es with
  | nil => simp [dict_set, dict_get]
  | cons q rest ih =>
    obtain ⟨k', v'⟩ := q
    by_cases h : k' = k
    · subst h; simp [dict_set, dict_get]
    · simp [dict_set, dict_get, h, ih]

theorem dict_set_fresh {α : Type} (es : List (Raw × α)) (k : Raw) (v : α)
    (h : ∀ q ∈ es, q.1 ≠ k) : dict_set es k v = es ++ [(k, v)] := by
  induction es with
  | nil => simp [dict_set]
  | cons q rest ih =>
    have hq : q.1 ≠ k := h q (List.mem_cons_self q rest)
    obtain ⟨k', v'⟩ := q
    simp only [dict_set, if_neg hq, List.cons_append, List.cons.injEq, true_and]
    exact ih fun r hr => h r (List.mem_cons_of_mem _ hr)

theorem foldl_dict_set_fresh {α : Type} (l : List (Raw × α)) (E : List (Raw × α))
    (hnd : (l.map Prod.fst).Nodup) (hdisj : ∀ q ∈ l, ∀ r ∈ E, r.1 ≠ q.1) :
    l.foldl (fun acc p => dict_set acc p.1 p.2) E = E ++ l := by
  induction l generalizing E with
  | nil => simp
  | cons p rest ih =>
    simp only [List.foldl_cons]
    simp only [List.map_cons, List.nodup_cons] at hnd
    rw [dict_set_fresh E p.1 p.2 (fun r hr => hdisj p (List.mem_cons_self p rest) r hr)]
    have hdisj' : ∀ q ∈ rest, ∀ r ∈ E ++ [(p.1, p.2)], r.1 ≠ q.1 := by
      intro q hq r hr
      rcases List.mem_append.mp hr with hrE | hrp
      · exact hdisj q (List.mem_cons_of_mem _ hq) r hrE
      · simp only [List.mem_singleton] at hrp
        subst hrp
        intro hc
        exact hnd.1 (hc ▸ List.mem_map_of_mem Prod.fst hq)
    rw [ih (E ++ [(p.1, p.2)]) hnd.2 hdisj']
    simp

theorem dict_of_pairs_nodup (l : List (Raw × Raw)) (hnd : (l.map Prod.fst).Nodup) :
    dict_of_pairs l = l := by
  unfold dict_of_pairs
  rw [foldl_dict_set_fresh l [] hnd (by simp)]
  simp

/-- A member of an association list with pairwise-distinct keys is exactly
what lookup by its key returns. -/
theorem dict_get_mem_nodup {α : Type} (es : List (Raw × α)) (kv : Raw × α)
    (hmem : kv ∈ es) (hnd : (es.map Prod.fst).Nodup) :
    dict_get es kv.1 = some kv.2 := by
  induction es with
  | nil => cases hmem
  | cons q rest ih =>
    simp only [List.map_cons, List.nodup_cons] at hnd
    rcases List.mem_cons.mp hmem with h | h
    · subst h; simp [dict_get]
    · have hne : q.1 ≠ kv.1 := by
        intro hc
        exact hnd.1 (hc ▸ List.mem_map_of_mem Prod.fst h)
      simp [dict_get, hne, ih h hnd.2]

theorem dict_get_append_right {α : Type} (es1 es2 : List (Raw × α)) (k : Raw)
    (h : ∀ q ∈ es1, q.1 ≠ k) :
    dict_get (es1 ++ es2) k = dict_get es2 k := by
  induction es1 with
  | nil => simp
  | cons q rest ih =>
    have hq : q.1 ≠ k := h q (List.mem_cons_self q rest)
    simp [dict_get, hq, ih fun r hr => h r (List.mem_cons_of_mem _ hr)]

theorem dict_del_append_right {α : Type} (es1 es2 : List (Raw × α)) (k : Raw)
    (h : ∀ q ∈ es1, q.1 ≠ k) :
    dict_del (es1 ++ es2) k = es1 ++ dict_del es2 k := by
  induction es1 with
  | nil => simp
  | cons q rest ih =>
    have hq : q.1 ≠ k := h q (List.mem_cons_self q rest)
    simp [dict_del, hq, ih fun r hr => h r (List.mem_cons_of_mem _ hr)]

/-! ### Characterising `set` / `update` states -/

/-- The entry a `__setitem__` for the raw pair `p` builds. -/
def entryOf (ks vs : ElementSchema) (p : Raw × Raw) : Raw × _Value :=
  (p.1, ⟨mk_element ks p.1, mk_element vs p.2⟩)

theorem foldl_setitem_entries (ks vs : ElementSchema) (l : List (Raw × Raw)) (m : Mapping) :
    l.foldl (fun a p => MutableMapping.setitem ks vs a p.1 p.2) m =
      { m with entries :=
          (l.map (entryOf ks vs)).foldl (fun es q => dict_set es q.1 q.2) m.entries } := by
  induction l generalizing m with
  | nil => simp
  | cons p rest ih =>
    simp only [List.foldl_cons, List.map_cons]
    rw [ih]
    rfl

/-- After `Dict.set` with a duplicate-free raw pair list, the state is the
raw value recorded verbatim and one freshly coerced entry per pair, in
order. -/
theorem Dict.set_entries (ks vs : ElementSchema) (m : Mapping) (l : List (Raw × Raw))
    (hnd : (l.map Prod.fst).Nodup) :
    Dict.set ks vs m (Raw.pairs l) =
      { m with raw_value := Raw.pairs l, entries := l.map (entryOf ks vs) } := by
  have h1 : Dict.set ks vs m (Raw.pairs l) =
      (dict_of_pairs l).foldl (fun a p => MutableMapping.setitem ks vs a p.1 p.2)
        { m with raw_value := Raw.pairs l, entries := [] } := rfl
  rw [h1, dict_of_pairs_nodup l hnd, foldl_setitem_entries]
  rw [foldl_dict_set_fresh (l.map (entryOf ks vs)) []]
  · simp
  · simpa [entryOf, List.map_map, Function.comp] using hnd
  · simp

/-! ### Characterising `items` / `values` under the lookup precondition -/

theorem getValueElem_of_entry (m : Mapping) (kv : Raw × _Value)
    (hmem : kv ∈ m.entries) (hnd : keysNodup m) :
    Mapping.getValueElem m kv.1 = some kv.2.value := by
  unfold Mapping.getValueElem
  rw [dict_get_mem_nodup m.entries kv hmem hnd]
  rfl

theorem items_ok (m : Mapping) (hnd : keysNodup m) (hsafe : lookupSafe m) :
    Mapping.items m = Except.ok (m.entries.map fun kv => (kv.2.key, kv.2.value)) := by
  have haux : ∀ es : List (Raw × _Value), (∀ kv ∈ es, kv ∈ m.entries) →
      exceptMapList (fun ke =>
        match Mapping.getValueElem m ke.value with
        | some ve => Except.ok (ke, ve)
        | none => Except.error (PyErr.keyError ke.value)) (es.map fun kv => kv.2.key) =
        Except.ok (es.map fun kv => (kv.2.key, kv.2.value)) := by
    intro es hes
    induction es with
    | nil => rfl
    | cons kv rest ih =>
      have hkv : kv ∈ m.entries := hes kv (List.mem_cons_self kv rest)
      have hval : kv.2.key.value = kv.1 := hsafe kv hkv
      have hget : Mapping.getValueElem m kv.2.key.value = some kv.2.value := by
        rw [hval]; exact getValueElem_of_entry m kv hkv hnd
      simp only [List.map_cons, exceptMapList, hget]
      rw [ih fun r hr => hes r (List.mem_cons_of_mem _ hr)]
      rfl
  exact haux m.entries fun kv h => h

theorem values_ok (m : Mapping) (hnd : keysNodup m) (hsafe : lookupSafe m) :
    Mapping.values m = Except.ok (m.entries.map fun kv => kv.2.value) := by
  have haux : ∀ es : List (Raw × _Value), (∀ kv ∈ es, kv ∈ m.entries) →
      exceptMapList (fun ke =>
        match Mapping.getValueElem m ke.value with
        | some ve => Except.ok ve
        | none => Except.error (PyErr.keyError ke.value)) (es.map fun kv => kv.2.key) =
        Except.ok (es.map fun kv => kv.2.value) := by
    intro es hes
    induction es with
    | nil => rfl
    | cons kv rest ih =>
      have hkv : kv ∈ m.entries := hes kv (List.mem_cons_self kv rest)
      have hval : kv.2.key.value = kv.1 := hsafe kv hkv
      have hget : Mapping.getValueElem m kv.2.key.value = some kv.2.value := by
        rw [hval]; exact getValueElem_of_entry m kv hkv hnd
      simp only [List.map_cons, exceptMapList, hget]
      rw [ih fun r hr => hes r (List.mem_cons_of_mem _ hr)]
      rfl
  exact haux m.entries fun kv h => h

/-! ### Characterising the `value` projection -/

/-- An entry whose key or value element carries the `NotUnserializable`
sentinel as its coerced value. -/
def entryBad (kv : Raw × _Value) : Bool :=
  decide (kv.2.key.value = Raw.notUnserializable) ||
    decide (kv.2.value.value = Raw.notUnserializable)

theorem valueLoop_spec (m : Mapping) (es : List (Raw × _Value)) (acc : List (Raw × Raw))
    (hsub : ∀ kv ∈ es, dict_get m.entries kv.1 = some kv.2 ∧ kv.2.key.value = kv.1) :
    Dict.valueLoop m (es.map fun kv => kv.2.key) acc =
      (if es.any entryBad then Except.ok Raw.notUnserializable
       else Except.ok (Raw.pairs
         (es.foldl (fun a kv => dict_set a kv.2.key.value kv.2.value.value) acc))) := by
  induction es generalizing acc with
  | nil => simp [Dict.valueLoop]
  | cons kv rest ih =>
    obtain ⟨hget, hkey⟩ := hsub kv (List.mem_cons_self kv rest)
    have hgv : Mapping.getValueElem m kv.2.key.value = some kv.2.value := by
      unfold Mapping.getValueElem
      rw [hkey, hget]
      rfl
    simp only [List.map_cons, Dict.valueLoop, hgv]
    by_cases hb : entryBad kv = true
    · have hcond : kv.2.key.value = Raw.notUnserializable ∨
          kv.2.value.value = Raw.notUnserializable := by
        simpa [entryBad] using hb
      simp [hcond, List.any_cons, hb]
    · have hcond : ¬(kv.2.key.value = Raw.notUnserializable ∨
          kv.2.value.value = Raw.notUnserializable) := by
        simpa [entryBad] using hb
      rw [if_neg hcond]
      rw [ih (dict_set acc kv.2.key.value kv.2.value.value)
        (fun r hr => hsub r (List.mem_cons_of_mem _ hr))]
      rw [Bool.not_eq_true] at hb
      simp only [List.any_cons, List.foldl_cons, hb, Bool.false_or]

/-- C1: Round-trip law: setting a well-formed raw mapping (duplicate-free
pair list) on a `Dict` or `OrderedDict` and reading `value` back yields
exactly the input when every key and value coerces to itself (and none is
the `NotUnserializable` sentinel). -/
theorem C1_set_value_roundtrip (ks vs : ElementSchema) (m : Mapping) (l : List (Raw × Raw))
    (hnd : (l.map Prod.fst).Nodup)
    (hid : ∀ p ∈ l, (mk_element ks p.1).value = p.1 ∧ p.1 ≠ Raw.notUnserializable ∧
      (mk_element vs p.2).value = p.2 ∧ p.2 ≠ Raw.notUnserializable) :
    Dict.value (Dict.set ks vs m (Raw.pairs l)) = Except.ok (Raw.pairs l) ∧
    OrderedDict.value (OrderedDict.set ks vs m (Raw.pairs l)) = Except.ok (Raw.pairs l) := by
  have hmain : Dict.value (Dict.set ks vs m (Raw.pairs l)) = Except.ok (Raw.pairs l) := by
    rw [Dict.set_entries ks vs m l hnd]
    have hkeys : ((l.map (entryOf ks vs)).map Prod.fst).Nodup := by
      simpa [entryOf, List.map_map, Function.comp] using hnd
    have hstep : Dict.value { m with raw_value := Raw.pairs l, entries := l.map (entryOf ks vs) }
        = Dict.valueLoop { m with raw_value := Raw.pairs l, entries := l.map (entryOf ks vs) }
          ((l.map (entryOf ks vs)).map fun kv => kv.2.key) [] := rfl
    rw [hstep]
    rw [valueLoop_spec _ (l.map (entryOf ks vs)) []]
    · have hnobad : (l.map (entryOf ks vs)).any entryBad = false := by
        rw [List.any_eq_false]
        intro kv hkv
        obtain ⟨p, hp, hep⟩ := List.mem_map.mp hkv
        obtain ⟨hk, hkne, hv, hvne⟩ := hid p hp
        subst hep
        simp [entryBad, entryOf, hk, hv, hkne, hvne]
      rw [hnobad]
      simp only [Bool.false_eq_true, if_false, Except.ok.injEq, Raw.pairs.injEq]
      rw [List.foldl_map]
      have hfold : l.foldl (fun a p =>
          dict_set a (entryOf ks vs p).2.key.value (entryOf ks vs p).2.value.value) [] =
          l.foldl (fun a p => dict_set a p.1 p.2) [] := by
        apply List.foldl_ext
        intro a p hp
        obtain ⟨hk, _, hv, _⟩ := hid p hp
        simp [entryOf, hk, hv]
      rw [hfold, foldl_dict_set_fresh l [] hnd (by simp)]
      simp
    · intro kv hkv
      obtain ⟨p, hp, hep⟩ := List.mem_map.mp hkv
      obtain ⟨hk, _, _, _⟩ := hid p hp
      constructor
      · exact dict_get_mem_nodup _ kv hkv hkeys
      · subst hep; simpa [entryOf] using hk
  exact ⟨hmain, hmain⟩

/-- C2 counterexample: on `Dict.of(Integer, Integer)` with raw input `{"x": 1}`, the stored
key element's coerced value is `NotUnserializable`, yet `value` does not
return `NotUnserializable`: the `items()` lookup `self[key.value]` raises
`KeyError(NotUnserializable)` first. -/
theorem C2_counterexample :
    ((Dict.set Integer Integer initMapping (Raw.pairs [(Raw.str "x", Raw.int 1)])).entries.map
      fun kv => kv.2.key.value) = [Raw.notUnserializable] ∧
    Dict.value (Dict.set Integer Integer initMapping (Raw.pairs [(Raw.str "x", Raw.int 1)]))
      = Except.error (PyErr.keyError Raw.notUnserializable) ∧
    Dict.value (Dict.set Integer Integer initMapping (Raw.pairs [(Raw.str "x", Raw.int 1)]))
      ≠ Except.ok Raw.notUnserializable := by
  refine ⟨rfl, rfl, ?_⟩
  intro h
  rw [show Dict.value (Dict.set Integer Integer initMapping
      (Raw.pairs [(Raw.str "x", Raw.int 1)]))
    = Except.error (PyErr.keyError Raw.notUnserializable) from rfl] at h
  exact Except.noConfusion h

/-- C2 (amended): for a mapping-shaped raw value whose stored key elements all
coerce back to their raw storage keys, `value` is `NotUnserializable`
exactly when some stored key or value element's coerced value is
`NotUnserializable`, and otherwise the fresh mapping of every entry's
coerced key to its coerced value; when a stored key element's coerced
value is not a raw storage key (the typical failed key coercion), `value`
instead raises `KeyError` (see the counterexample). -/
theorem C2_value_aggregation (m : Mapping) (l : List (Raw × Raw))
    (hraw : m.raw_value = Raw.pairs l) (hnd : keysNodup m) (hsafe : lookupSafe m) :
    Dict.value m = (if m.entries.any entryBad then Except.ok Raw.notUnserializable
      else Except.ok (Raw.pairs (m.entries.map fun kv => (kv.2.key.value, kv.2.value.value)))) ∧
    OrderedDict.value m = Dict.value m := by
  refine ⟨?_, rfl⟩
  have h0 : Dict.value m = Dict.valueLoop m (m.entries.map fun kv => kv.2.key) [] := by
    unfold Dict.value
    rw [hraw]
    rfl
  rw [h0]
  rw [valueLoop_spec m m.entries []]
  · by_cases hb : m.entries.any entryBad = true
    · rw [hb]
      rfl
    · rw [Bool.not_eq_true] at hb
      rw [hb]
      simp only [Bool.false_eq_true, if_false, Except.ok.injEq, Raw.pairs.injEq]
      have hkeys : (m.entries.map fun kv => (kv.2.key.value, kv.2.value.value)).map Prod.fst
          = m.entries.map Prod.fst := by
        rw [List.map_map]
        apply List.map_congr_left
        intro kv hkv
        simpa [Function.comp] using hsafe kv hkv
      have hfold := foldl_dict_set_fresh
        (m.entries.map fun kv => (kv.2.key.value, kv.2.value.value)) []
        (by rw [hkeys]; exact hnd) (by simp)
      rw [List.foldl_map] at hfold
      rw [hfold]
      simp
  · intro kv hkv
    exact ⟨dict_get_mem_nodup m.entries kv hkv hnd, hsafe kv hkv⟩

/-- C1 witness: the round trip at `Dict.of(Unicode, Integer)` /
`OrderedDict.of(Unicode, Integer)` on the raw input `{"a": 1, "b": 2}`. -/
theorem C1_set_value_roundtrip_witness :
    Dict.value (Dict.set Unicode Integer initMapping
        (Raw.pairs [(Raw.str "a", Raw.int 1), (Raw.str "b", Raw.int 2)]))
      = Except.ok (Raw.pairs [(Raw.str "a", Raw.int 1), (Raw.str "b", Raw.int 2)]) ∧
    OrderedDict.value (OrderedDict.set Unicode Integer initMapping
        (Raw.pairs [(Raw.str "a", Raw.int 1), (Raw.str "b", Raw.int 2)]))
      = Except.ok (Raw.pairs [(Raw.str "a", Raw.int 1), (Raw.str "b", Raw.int 2)]) :=
  C1_set_value_roundtrip Unicode Integer initMapping
    [(Raw.str "a", Raw.int 1), (Raw.str "b", Raw.int 2)] (by decide) (by decide)

/-- C2 witness: at `Dict.of(Unicode, Integer)` on raw input `{"a": "x"}`
(the value element fails coercion), the amended aggregation law gives
`NotUnserializable`. -/
theorem C2_value_aggregation_witness :
    Dict.value (Dict.set Unicode Integer initMapping (Raw.pairs [(Raw.str "a", Raw.str "x")]))
      = Except.ok Raw.notUnserializable := by
  have h := C2_value_aggregation
    (Dict.set Unicode Integer initMapping (Raw.pairs [(Raw.str "a", Raw.str "x")]))
    [(Raw.str "a", Raw.str "x")] rfl (by decide) (by decide)
  rw [h.1]
  rfl

/-! ### Characterising `popitem` -/

theorem popitem_last_spec (vs : ElementSchema) (m : Mapping) (es : List (Raw × _Value))
    (rk : Raw) (ph : _Value) (hent : m.entries = es ++ [(rk, ph)])
    (hnd : keysNodup m) (hsafe : lookupSafe m) :
    OrderedDict.popitem vs m true = Except.ok ((ph.key, ph.value), { m with entries := es }) := by
  have hne : m.entries.isEmpty = false := by rw [hent]; simp
  have hkv : ph.key.value = rk := hsafe (rk, ph) (by rw [hent]; simp)
  have hdisj : ∀ q ∈ es, q.1 ≠ rk := by
    have hnd' := hnd
    unfold keysNodup at hnd'
    rw [hent] at hnd'
    simp only [List.map_append, List.map_cons, List.map_nil, List.nodup_append,
      List.nodup_cons, List.nodup_nil] at hnd'
    intro q hq hc
    have hmem : q.1 ∈ es.map (fun kv => kv.1) := List.mem_map_of_mem _ hq
    exact hnd'.2.2 hmem (by simp [hc])
  have hget : dict_get m.entries ph.key.value = some ph := by
    rw [hkv, hent, dict_get_append_right es _ rk hdisj]
    simp [dict_get]
  have hdel : dict_del m.entries ph.key.value = es := by
    rw [hkv, hent, dict_del_append_right es _ rk hdisj]
    simp [dict_del]
  have hrev : OrderedDict.reversedKeys m = ph.key :: es.reverse.map (fun kv => kv.2.key) := by
    unfold OrderedDict.reversedKeys
    rw [hent]
    simp
  unfold OrderedDict.popitem
  rw [hne]
  simp only [Bool.false_eq_true, if_false, if_true, hrev]
  unfold OrderedDict.pop
  rw [hget, hdel]
  rfl

theorem popitem_first_spec (vs : ElementSchema) (m : Mapping) (es : List (Raw × _Value))
    (rk : Raw) (ph : _Value) (hent : m.entries = (rk, ph) :: es)
    (hsafe : lookupSafe m) :
    OrderedDict.popitem vs m false = Except.ok ((ph.key, ph.value), { m with entries := es }) := by
  have hne : m.entries.isEmpty = false := by rw [hent]; simp
  have hkv : ph.key.value = rk := hsafe (rk, ph) (by rw [hent]; simp)
  have hget : dict_get m.entries ph.key.value = some ph := by
    rw [hkv, hent]
    simp [dict_get]
  have hdel : dict_del m.entries ph.key.value = es := by
    rw [hkv, hent]
    simp [dict_del]
  have hit : Mapping.iterKeys m = ph.key :: es.map (fun kv => kv.2.key) := by
    unfold Mapping.iterKeys
    rw [hent]
    simp
  unfold OrderedDict.popitem
  rw [hne]
  simp only [Bool.false_eq_true, if_false, hit]
  unfold OrderedDict.pop
  rw [hget, hdel]
  rfl

/-- C5: on a non-empty `OrderedDict` (whose stored key elements coerce
back to their raw storage keys), `popitem(last=True)` removes and returns
the most recently inserted entry's (key, value) element pair,
`popitem(last=False)` the oldest entry's; on an empty `OrderedDict` both
raise the empty-container `KeyError` and no state is produced. -/
theorem C5_popitem_ends (vs : ElementSchema) (m : Mapping)
    (hnd : keysNodup m) (hsafe : lookupSafe m) :
    (∀ es rk ph, m.entries = es ++ [(rk, ph)] →
      OrderedDict.popitem vs m true = Except.ok ((ph.key, ph.value), { m with entries := es })) ∧
    (∀ rk ph es, m.entries = (rk, ph) :: es →
      OrderedDict.popitem vs m false = Except.ok ((ph.key, ph.value), { m with entries := es })) ∧
    (m.entries = [] →
      OrderedDict.popitem vs m true = Except.error (PyErr.keyError (Raw.str "dictionary is empty")) ∧
      OrderedDict.popitem vs m false = Except.error (PyErr.keyError (Raw.str "dictionary is empty"))) := by
  refine ⟨?_, ?_, ?_⟩
  · intro es rk ph hent
    exact popitem_last_spec vs m es rk ph hent hnd hsafe
  · intro rk ph es hent
    exact popitem_first_spec vs m es rk ph hent hsafe
  · intro hent
    have hne : m.entries.isEmpty = true := by rw [hent]; rfl
    constructor <;> · unfold OrderedDict.popitem; rw [hne]; rfl

/-- C5 witness: a 3-entry `OrderedDict.of(Unicode, Integer)` built from
`{"a": 1, "b": 2, "c": 3}`: `popitem(last=True)` pops `("c", 3)`,
`popitem(last=False)` pops `("a", 1)`, and the empty container raises. -/
theorem C5_popitem_ends_witness :
    OrderedDict.popitem Integer (OrderedDict.set Unicode Integer initMapping
        (Raw.pairs [(Raw.str "a", Raw.int 1), (Raw.str "b", Raw.int 2), (Raw.str "c", Raw.int 3)])) true
      = Except.ok ((mk_element Unicode (Raw.str "c"), mk_element Integer (Raw.int 3)),
          { OrderedDict.set Unicode Integer initMapping
              (Raw.pairs [(Raw.str "a", Raw.int 1), (Raw.str "b", Raw.int 2), (Raw.str "c", Raw.int 3)]) with
            entries := [entryOf Unicode Integer (Raw.str "a", Raw.int 1),
                        entryOf Unicode Integer (Raw.str "b", Raw.int 2)] }) ∧
    OrderedDict.popitem Integer (OrderedDict.set Unicode Integer initMapping
        (Raw.pairs [(Raw.str "a", Raw.int 1), (Raw.str "b", Raw.int 2), (Raw.str "c", Raw.int 3)])) false
      = Except.ok ((mk_element Unicode (Raw.str "a"), mk_element Integer (Raw.int 1)),
          { OrderedDict.set Unicode Integer initMapping
              (Raw.pairs [(Raw.str "a", Raw.int 1), (Raw.str "b", Raw.int 2), (Raw.str "c", Raw.int 3)]) with
            entries := [entryOf Unicode Integer (Raw.str "b", Raw.int 2),
                        entryOf Unicode Integer (Raw.str "c", Raw.int 3)] }) ∧
    OrderedDict.popitem Integer initMapping true
      = Except.error (PyErr.keyError (Raw.str "dictionary is empty")) := by
  have h := C5_popitem_ends Integer (OrderedDict.set Unicode Integer initMapping
    (Raw.pairs [(Raw.str "a", Raw.int 1), (Raw.str "b", Raw.int 2), (Raw.str "c", Raw.int 3)]))
    (by decide) (by decide)
  have hempty := C5_popitem_ends Integer initMapping (by decide) (by decide)
  refine ⟨?_, ?_, (hempty.2.2 rfl).1⟩
  · exact h.1 [entryOf Unicode Integer (Raw.str "a", Raw.int 1),
      entryOf Unicode Integer (Raw.str "b", Raw.int 2)] (Raw.str "c")
      ⟨mk_element Unicode (Raw.str "c"), mk_element Integer (Raw.int 3)⟩ rfl
  · exact h.2.1 (Raw.str "a")
      ⟨mk_element Unicode (Raw.str "a"), mk_element Integer (Raw.int 1)⟩
      [entryOf Unicode Integer (Raw.str "b", Raw.int 2),
       entryOf Unicode Integer (Raw.str "c", Raw.int 3)] rfl

/-- C4: for every mapping (whose stored key elements coerce back to
their raw storage keys, so the `items()` lookups succeed) and every path
prefix, `traverse` yields, for the i-th entry in iteration order, the key
element's (leaf) traversal under `prefix ++ [i, 0]` followed by the value
element's under `prefix ++ [i, 1]`; with no prefix the paths start at
`[i, 0]` / `[i, 1]`, so a 2-entry flat mapping yields exactly the four
leaves `[0,0], [0,1], [1,0], [1,1]`. -/
theorem C4_traverse_paths (m : Mapping) (pfx : Option (List Nat))
    (hnd : keysNodup m) (hsafe : lookupSafe m) :
    Mapping.traverse m pfx = Except.ok
      (m.entries.enum.flatMap fun ikv =>
        [(pfx.getD [] ++ [ikv.1, 0], ikv.2.2.key), (pfx.getD [] ++ [ikv.1, 1], ikv.2.2.value)]) := by
  have haux : ∀ (es : List (Raw × _Value)) (n : Nat) (pp : List Nat),
      ((es.map fun kv => (kv.2.key, kv.2.value)).enumFrom n).flatMap (fun ip =>
        Element.traverse ip.2.1 (some (pp ++ [ip.1] ++ [0])) ++
          Element.traverse ip.2.2 (some (pp ++ [ip.1] ++ [1]))) =
      (es.enumFrom n).flatMap (fun ikv =>
        [(pp ++ [ikv.1, 0], ikv.2.2.key), (pp ++ [ikv.1, 1], ikv.2.2.value)]) := by
    intro es
    induction es with
    | nil => intro n pp; rfl
    | cons kv rest ih =>
      intro n pp
      rw [List.map_cons, List.enumFrom_cons, List.enumFrom_cons, List.flatMap_cons,
        List.flatMap_cons, ih (n + 1) pp]
      simp [Element.traverse, List.append_assoc]
  unfold Mapping.traverse
  rw [items_ok m hnd hsafe]
  show Except.ok _ = Except.ok _
  cases pfx with
  | none =>
    rw [Except.ok.injEq]
    have h := haux m.entries 0 []
    simp only [List.nil_append] at h
    simpa [List.enum] using h
  | some p =>
    rw [Except.ok.injEq]
    have h := haux m.entries 0 p
    simpa [List.enum] using h

/-- C4 witness: a 2-entry `Dict.of(Unicode, Integer)` built from
`{"a": 1, "b": 2}`, traversed with no prefix, yields exactly 4 leaves at
paths [0,0] (key "a"), [0,1] (value 1), [1,0] (key "b"), [1,1]
(value 2). -/
theorem C4_traverse_paths_witness :
    Mapping.traverse (Dict.set Unicode Integer initMapping
        (Raw.pairs [(Raw.str "a", Raw.int 1), (Raw.str "b", Raw.int 2)])) none
      = Except.ok
        [([0, 0], mk_element Unicode (Raw.str "a")), ([0, 1], mk_element Integer (Raw.int 1)),
         ([1, 0], mk_element Unicode (Raw.str "b")), ([1, 1], mk_element Integer (Raw.int 2))] := by
  have h := C4_traverse_paths (Dict.set Unicode Integer initMapping
    (Raw.pairs [(Raw.str "a", Raw.int 1), (Raw.str "b", Raw.int 2)])) none
    (by decide) (by decide)
  rw [h]
  rfl

/-- C6: `update` with more than one positional source raises `TypeError`;
with at most one positional source it applies each (key, value) pair of
the source, then each keyword override, in order through individual
`self[key] = value` assignments — so on a key collision the
later-applied assignment wins (the overridden entry is the keyword's
coercion). -/
theorem C6_update_sources (ks vs : ElementSchema) (m : Mapping)
    (src a1 a2 : List (Raw × Raw)) (rest : List (List (Raw × Raw)))
    (kwargs : List (String × Raw)) :
    (MutableMapping.update ks vs m (a1 :: a2 :: rest) kwargs
      = Except.error (PyErr.typeError
          ("update expected at most 1 argument, got " ++ toString (a1 :: a2 :: rest).length))) ∧
    (MutableMapping.update ks vs m [src] kwargs = Except.ok
      ((src ++ kwargs.map fun p => (Raw.str p.1, p.2)).foldl
        (fun a q => MutableMapping.setitem ks vs a q.1 q.2) m)) ∧
    (MutableMapping.update ks vs m [] kwargs = Except.ok
      ((kwargs.map fun p => (Raw.str p.1, p.2)).foldl
        (fun a q => MutableMapping.setitem ks vs a q.1 q.2) m)) ∧
    (∀ (k : String) (v1 v2 : Raw),
      (MutableMapping.update ks vs m [[(Raw.str k, v1)]] [(k, v2)]).map
          (fun m' => dict_get m'.entries (Raw.str k))
        = Except.ok (some ⟨mk_element ks (Raw.str k), mk_element vs v2⟩)) := by
  refine ⟨?_, ?_, ?_, ?_⟩
  · unfold MutableMapping.update
    rw [if_pos (by simp)]
  · unfold MutableMapping.update
    simp [List.foldl_append]
  · rfl
  · intro k v1 v2
    unfold MutableMapping.update
    simp only [List.length_cons, List.length_nil]
    rw [if_neg (by omega)]
    simp only [List.map_cons, List.map_nil, List.foldl_cons, List.foldl_nil, Except.map]
    unfold MutableMapping.setitem
    simp [dict_get_set_self]

/-- C6 witness: on an empty `Dict.of(Unicode, Integer)`, one positional
source `{"x": 1}` plus the keyword override `y=2` produce exactly the
entries for x ↦ 1 and y ↦ 2; two positional sources raise `TypeError`. -/
theorem C6_update_sources_witness :
    MutableMapping.update Unicode Integer initMapping [[(Raw.str "x", Raw.int 1)]] [("y", Raw.int 2)]
      = Except.ok { initMapping with entries :=
          [entryOf Unicode Integer (Raw.str "x", Raw.int 1),
           entryOf Unicode Integer (Raw.str "y", Raw.int 2)] } ∧
    MutableMapping.update Unicode Integer initMapping [[], []] []
      = Except.error (PyErr.typeError "update expected at most 1 argument, got 2") := by
  have h := C6_update_sources Unicode Integer initMapping
    [(Raw.str "x", Raw.int 1)] [] [] [] [("y", Raw.int 2)]
  exact ⟨by rw [h.2.1]; rfl, h.1⟩

/-- C7: `pop(key)` with no fallback removes the entry stored under the
(raw) key and returns its value element, raising `KeyError` and keeping
the container unchanged when the key is absent; `pop(key, fallback)` on
an absent key instead returns the value schema's coercion of the
fallback, leaving the container untouched.  Both the `MutableMapping`
and the `OrderedDict` override behave this way. -/
theorem C7_pop_fallback (vs : ElementSchema) (m : Mapping) (k : Raw) :
    (∀ ph, dict_get m.entries k = some ph →
      MutableMapping.pop vs m k [] = Except.ok (ph.value, { m with entries := dict_del m.entries k }) ∧
      OrderedDict.pop vs m k none = Except.ok (ph.value, { m with entries := dict_del m.entries k })) ∧
    (dict_get m.entries k = none →
      MutableMapping.pop vs m k [] = Except.error (PyErr.keyError k) ∧
      OrderedDict.pop vs m k none = Except.error (PyErr.keyError k) ∧
      (∀ d, MutableMapping.pop vs m k [d] = Except.ok (mk_element vs d, m) ∧
            OrderedDict.pop vs m k (some d) = Except.ok (mk_element vs d, m))) := by
  constructor
  · intro ph hget
    constructor
    · unfold MutableMapping.pop
      rw [if_neg (by simp)]
      rw [hget]
    · unfold OrderedDict.pop
      rw [hget]
  · intro hget
    refine ⟨?_, ?_, ?_⟩
    · unfold MutableMapping.pop
      rw [if_neg (by simp)]
      rw [hget]
    · unfold OrderedDict.pop
      rw [hget]
    · intro d
      constructor
      · unfold MutableMapping.pop
        rw [if_neg (by simp)]
        rw [hget]
      · unfold OrderedDict.pop
        rw [hget]

/-- C7 witness: popping the present key "b" from a 2-entry mapping
returns its value element and removes the entry; popping the absent key
"missing" raises `KeyError` without a fallback and returns the coerced
fallback `7` with one. -/
theorem C7_pop_fallback_witness :
    MutableMapping.pop Integer (Dict.set Unicode Integer initMapping
        (Raw.pairs [(Raw.str "a", Raw.int 1), (Raw.str "b", Raw.int 2)])) (Raw.str "b") []
      = Except.ok (mk_element Integer (Raw.int 2),
          { Dict.set Unicode Integer initMapping
              (Raw.pairs [(Raw.str "a", Raw.int 1), (Raw.str "b", Raw.int 2)]) with
            entries := [entryOf Unicode Integer (Raw.str "a", Raw.int 1)] }) ∧
    MutableMapping.pop Integer initMapping (Raw.str "missing") []
      = Except.error (PyErr.keyError (Raw.str "missing")) ∧
    MutableMapping.pop Integer initMapping (Raw.str "missing") [Raw.int 7]
      = Except.ok (mk_element Integer (Raw.int 7), initMapping) ∧
    OrderedDict.pop Integer initMapping (Raw.str "missing") (some (Raw.int 7))
      = Except.ok (mk_element Integer (Raw.int 7), initMapping) := by
  have h1 := C7_pop_fallback Integer (Dict.set Unicode Integer initMapping
    (Raw.pairs [(Raw.str "a", Raw.int 1), (Raw.str "b", Raw.int 2)])) (Raw.str "b")
  have h2 := C7_pop_fallback Integer initMapping (Raw.str "missing")
  refine ⟨?_, (h2.2 rfl).1, ((h2.2 rfl).2.2 (Raw.int 7)).1, ((h2.2 rfl).2.2 (Raw.int 7)).2⟩
  exact (h1.1 ⟨mk_element Unicode (Raw.str "b"), mk_element Integer (Raw.int 2)⟩ rfl).1

/-- C8: bound semantics of the range validators on usable values:
`ShorterThan(5)` fails (recording its message) exactly on values of
length ≥ 5 and passes on length ≤ 4; `WithinRange(0, 10)` passes exactly
when `0 < v < 10` (both ends exclusive, so 1..9 pass and 0 and 10 fail,
recording its message). -/
theorem C8_range_validator_bounds (s : String) (v : Int) (e1 e2 : Element)
    (h1 : e1.value = Raw.str s) (h2 : e2.value = Raw.int v) :
    ShorterThan_validate 5 e1 = Except.ok
      (if 5 ≤ s.length then (false, note_error e1 (ShorterThan_message 5)) else (true, e1)) ∧
    WithinRange_validate 0 10 e2 = Except.ok
      (if 0 < v ∧ v < 10 then (true, e2) else (false, note_error e2 (WithinRange_message 0 10))) := by
  constructor
  · have hu : is_unusable e1 = false := by simp [is_unusable, h1]
    unfold ShorterThan_validate
    rw [hu]
    simp only [Bool.false_eq_true, if_false, h1, pyLen]
    by_cases hl : 5 ≤ s.length
    · rw [if_pos hl, if_pos hl]
    · rw [if_neg hl, if_neg hl]
  · have hu : is_unusable e2 = false := by simp [is_unusable, h2]
    unfold WithinRange_validate
    rw [hu]
    simp only [Bool.false_eq_true, if_false, h2]
    by_cases hr : 0 < v ∧ v < 10
    · rw [if_pos hr, if_pos hr]
    · rw [if_neg hr, if_neg hr]

/-- C8 witness: "abcd" (4 chars) passes and "abcde" (5 chars) fails
`ShorterThan(5)`; 9 passes and 10 fails `WithinRange(0, 10)`. -/
theorem C8_range_validator_bounds_witness :
    ShorterThan_validate 5 (mk_element Unicode (Raw.str "abcd"))
      = Except.ok (true, mk_element Unicode (Raw.str "abcd")) ∧
    ShorterThan_validate 5 (mk_element Unicode (Raw.str "abcde"))
      = Except.ok (false, note_error (mk_element Unicode (Raw.str "abcde")) (ShorterThan_message 5)) ∧
    WithinRange_validate 0 10 (mk_element Integer (Raw.int 9))
      = Except.ok (true, mk_element Integer (Raw.int 9)) ∧
    WithinRange_validate 0 10 (mk_element Integer (Raw.int 10))
      = Except.ok (false, note_error (mk_element Integer (Raw.int 10)) (WithinRange_message 0 10)) := by
  have ha := C8_range_validator_bounds "abcd" 9
    (mk_element Unicode (Raw.str "abcd")) (mk_element Integer (Raw.int 9)) rfl rfl
  have hb := C8_range_validator_bounds "abcde" 10
    (mk_element Unicode (Raw.str "abcde")) (mk_element Integer (Raw.int 10)) rfl rfl
  refine ⟨?_, ?_, ?_, ?_⟩
  · rw [ha.1]; rfl
  · rw [hb.1]; rfl
  · rw [ha.2]; rfl
  · rw [hb.2]; rfl

/-- C9: `ContainedIn(options)` runs its membership test on every element
— including elements whose value is `Unspecified` or `NotUnserializable`,
since unlike the other value-dependent validators it applies no
`is_unusable` guard: it returns true iff `element.value` is a member of
`options`, and otherwise appends "Not a valid value." to the element's
errors and returns false. -/
theorem C9_containedIn_no_guard (ctx : Context) (options : List Raw) (e : Element) :
    ((ContainedIn_validate options e).map (fun q => q.1) = Except.ok (decide (e.value ∈ options))) ∧
    ((ContainedIn_validate options e).map (fun q => q.2.errors) = Except.ok
      (if e.value ∈ options then e.errors else e.errors ++ ["Not a valid value."])) ∧
    (is_unusable e = true →
      (ContainedIn_validate options e).map (fun q => q.1) = Except.ok (decide (e.value ∈ options))) ∧
    runValidator (VSpec.containedIn options) e ctx = ContainedIn_validate options e := by
  refine ⟨?_, ?_, fun _ => ?_, rfl⟩ <;>
  · unfold ContainedIn_validate
    by_cases hmem : e.value ∈ options
    · simp [hmem, note_error, Except.map]
    · simp [hmem, note_error, Except.map]

/-- C9 witness: with the `Unspecified` sentinel itself among the options,
an unusable (never-set) element passes the membership test — the
validator really does run on unusable values — while an unusable element
against options `[1]` fails with "Not a valid value.". -/
theorem C9_containedIn_no_guard_witness :
    is_unusable (mk_element Integer Raw.unspecified) = true ∧
    (ContainedIn_validate [Raw.unspecified] (mk_element Integer Raw.unspecified)).map
        (fun q => q.1) = Except.ok true ∧
    (ContainedIn_validate [Raw.int 1] (mk_element Integer Raw.unspecified)).map
        (fun q => q.2.errors) = Except.ok ["Not a valid value."] := by
  have h1 := C9_containedIn_no_guard [] [Raw.unspecified] (mk_element Integer Raw.unspecified)
  have h2 := C9_containedIn_no_guard [] [Raw.int 1] (mk_element Integer Raw.unspecified)
  refine ⟨rfl, ?_, ?_⟩
  · rw [h1.2.2.1 rfl]; rfl
  · rw [h2.2.1]; rfl

/-- C10: `values()` and `items()` (and `popitem` via `pop`) index the
container by each key element's coerced value rather than the raw
storage key; when every stored key element's coerced value equals its
raw storage key they never raise and yield each entry's elements in
order, but with a representation-changing key coercion
(`Dict.of(Integer, Integer)` on `{"1": 7}`) the not-found `KeyError`
branch is reached on a non-empty container. -/
theorem C10_coerced_key_lookup (m : Mapping) (hnd : keysNodup m) (hsafe : lookupSafe m) :
    (Mapping.items m = Except.ok (m.entries.map fun kv => (kv.2.key, kv.2.value)) ∧
     Mapping.values m = Except.ok (m.entries.map fun kv => kv.2.value) ∧
     (∀ vs es rk ph, m.entries = es ++ [(rk, ph)] →
       OrderedDict.popitem vs m true = Except.ok ((ph.key, ph.value), { m with entries := es }))) ∧
    (Mapping.items (Dict.set Integer Integer initMapping (Raw.pairs [(Raw.str "1", Raw.int 7)]))
       = Except.error (PyErr.keyError (Raw.int 1)) ∧
     Mapping.values (Dict.set Integer Integer initMapping (Raw.pairs [(Raw.str "1", Raw.int 7)]))
       = Except.error (PyErr.keyError (Raw.int 1)) ∧
     (Dict.set Integer Integer initMapping (Raw.pairs [(Raw.str "1", Raw.int 7)])).entries.length = 1 ∧
     OrderedDict.popitem Integer
         (Dict.set Integer Integer initMapping (Raw.pairs [(Raw.str "1", Raw.int 7)])) true
       = Except.error (PyErr.keyError (Raw.int 1))) := by
  refine ⟨⟨items_ok m hnd hsafe, values_ok m hnd hsafe, ?_⟩, rfl, rfl, rfl, rfl⟩
  intro vs es rk ph hent
  exact popitem_last_spec vs m es rk ph hent hnd hsafe

/-- C10 witness: on a well-formed 2-entry `Dict.of(Unicode, Integer)` the
coerced-key lookups of `items()` succeed and yield the stored element
pairs. -/
theorem C10_coerced_key_lookup_witness :
    Mapping.items (Dict.set Unicode Integer initMapping
        (Raw.pairs [(Raw.str "a", Raw.int 1), (Raw.str "b", Raw.int 2)]))
      = Except.ok
        [(mk_element Unicode (Raw.str "a"), mk_element Integer (Raw.int 1)),
         (mk_element Unicode (Raw.str "b"), mk_element Integer (Raw.int 2))] := by
  have h := C10_coerced_key_lookup (Dict.set Unicode Integer initMapping
    (Raw.pairs [(Raw.str "a", Raw.int 1), (Raw.str "b", Raw.int 2)])) (by decide) (by decide)
  rw [h.1.1]
  rfl

/-! ### Validation machinery: what a validator can read and write

A validator reads an element's coerced value and appends to its error
list; it never changes the value, the raw value or the attached
validators.  These lemmas let the mapping-level `validate` be related to
per-element validation. -/

/-- The element fields a validator can observe. -/
def elemView (e : Element) : Raw × List String := (e.value, e.errors)

theorem runValidator_preserves (v : VSpec) (e : Element) (ctx : Context) (b : Bool)
    (e' : Element) (h : runValidator v e ctx = Except.ok (b, e')) :
    e'.value = e.value ∧ e'.validators = e.validators ∧ e'.raw_value = e.raw_value ∧
      e'.is_valid = e.is_valid := by
  cases v with
  | shorterThan ub =>
    have h' : ShorterThan_validate ub e = Except.ok (b, e') := h
    unfold ShorterThan_validate at h'
    split at h'
    · cases h'; simp [note_error]
    · split at h'
      · cases h'
      · split at h'
        · cases h'; simp [note_error]
        · cases h'; simp
  | withinRange lo hi =>
    have h' : WithinRange_validate lo hi e = Except.ok (b, e') := h
    unfold WithinRange_validate at h'
    split at h'
    · cases h'; simp [note_error]
    · split at h'
      · split at h'
        · cases h'; simp
        · cases h'; simp [note_error]
      · cases h'
  | containedIn opts =>
    have h' : ContainedIn_validate opts e = Except.ok (b, e') := h
    unfold ContainedIn_validate at h'
    split at h'
    · cases h'; simp
    · cases h'; simp [note_error]

theorem runValidators_preserves (vl : List VSpec) (e : Element) (ctx : Context) (b : Bool)
    (e' : Element) (h : runValidators vl e ctx = Except.ok (b, e')) :
    e'.value = e.value ∧ e'.validators = e.validators ∧ e'.raw_value = e.raw_value ∧
      e'.is_valid = e.is_valid := by
  induction vl generalizing e b e' with
  | nil =>
    unfold runValidators at h
    cases h
    exact ⟨rfl, rfl, rfl, rfl⟩
  | cons v rest ih =>
    unfold runValidators at h
    cases h1 : runValidator v e ctx with
    | error err =>
      rw [h1] at h
      simp only [bind, Except.bind] at h
      cases h
    | ok q =>
      rw [h1] at h
      simp only [bind, Except.bind] at h
      cases h2 : runValidators rest q.2 ctx with
      | error err =>
        rw [h2] at h
        simp only [bind, Except.bind] at h
        cases h
      | ok r =>
        rw [h2] at h
        simp only [bind, Except.bind, pure, Except.pure, Except.ok.injEq] at h
        obtain ⟨p1, p2, p3, p4⟩ := runValidator_preserves v e ctx q.1 q.2 (by rw [h1])
        obtain ⟨q1, q2, q3, q4⟩ := ih q.2 r.1 r.2 (by rw [h2])
        cases h
        exact ⟨q1.trans p1, q2.trans p2, q3.trans p3, q4.trans p4⟩

theorem Element.validate_fields (e : Element) (ctx : Context) (b : Bool) (e' : Element)
    (h : Element.validate e ctx = Except.ok (b, e')) :
    e'.value = e.value ∧ e'.validators = e.validators ∧ e'.raw_value = e.raw_value ∧
      e'.is_valid = some b := by
  unfold Element.validate at h
  cases h1 : runValidators e.validators e ctx with
  | error err => rw [h1] at h; cases h
  | ok q =>
    rw [h1] at h
    simp only [Except.map, Except.ok.injEq] at h
    obtain ⟨p1, p2, p3, _⟩ := runValidators_preserves e.validators e ctx q.1 q.2 h1
    cases h
    exact ⟨p1, p2, p3, rfl⟩

/-- A validator's outcome (pass/fail boolean, error raised, resulting
value and error list) depends only on the element's view — its coerced
value and errors — not on its raw value, validators or validity flag. -/
theorem runValidator_congr (v : VSpec) (e f : Element) (ctx : Context)
    (hv : e.value = f.value) (he : e.errors = f.errors) :
    (runValidator v e ctx).map (fun q => (q.1, elemView q.2)) =
    (runValidator v f ctx).map (fun q => (q.1, elemView q.2)) := by
  have hu : is_unusable e = is_unusable f := by simp [is_unusable, hv]
  cases v with
  | shorterThan ub =>
    show (ShorterThan_validate ub e).map _ = (ShorterThan_validate ub f).map _
    unfold ShorterThan_validate
    rw [hu, hv]
    split
    · simp [Except.map, elemView, note_error, hv, he]
    · split
      · rfl
      · split
        · simp [Except.map, elemView, note_error, hv, he]
        · simp [Except.map, elemView, hv, he]
  | withinRange lo hi =>
    show (WithinRange_validate lo hi e).map _ = (WithinRange_validate lo hi f).map _
    unfold WithinRange_validate
    rw [hu, hv]
    split
    · simp [Except.map, elemView, note_error, hv, he]
    · split
      · split
        · simp [Except.map, elemView, hv, he]
        · simp [Except.map, elemView, note_error, hv, he]
      · rfl
  | containedIn opts =>
    show (ContainedIn_validate opts e).map _ = (ContainedIn_validate opts f).map _
    unfold ContainedIn_validate
    rw [hv]
    split
    · simp [Except.map, elemView, hv, he]
    · simp [Except.map, elemView, note_error, hv, he]

theorem map_proj_bind_pure (X Y : Except PyErr (Bool × Element)) (b1 b2 : Bool)
    (hXY : X.map (fun q => (q.1, elemView q.2)) = Y.map (fun q => (q.1, elemView q.2)))
    (hb : b1 = b2) :
    (X.bind (fun r => pure (b1 && r.1, r.2))).map (fun q => (q.1, elemView q.2)) =
    (Y.bind (fun r => pure (b2 && r.1, r.2))).map (fun q => (q.1, elemView q.2)) := by
  cases X with
  | error ex =>
    cases Y with
    | error ey =>
      simp only [Except.map] at hXY
      cases hXY
      rfl
    | ok qy => simp [Except.map] at hXY
  | ok qx =>
    cases Y with
    | error ey => simp [Except.map] at hXY
    | ok qy =>
      simp only [Except.map, Except.ok.injEq, Prod.mk.injEq] at hXY
      simp only [Except.bind, Except.map, pure, Except.pure, Except.ok.injEq, Prod.mk.injEq]
      exact ⟨by rw [hXY.1, hb], hXY.2⟩

theorem runValidators_congr (vl : List VSpec) (e f : Element) (ctx : Context)
    (hv : e.value = f.value) (he : e.errors = f.errors) :
    (runValidators vl e ctx).map (fun q => (q.1, elemView q.2)) =
    (runValidators vl f ctx).map (fun q => (q.1, elemView q.2)) := by
  induction vl generalizing e f with
  | nil => simp [runValidators, Except.map, elemView, hv, he]
  | cons v rest ih =>
    have h1 := runValidator_congr v e f ctx hv he
    unfold runValidators
    cases he1 : runValidator v e ctx with
    | error err =>
      cases hf1 : runValidator v f ctx with
      | error err2 =>
        rw [he1, hf1] at h1
        simp only [Except.map] at h1
        cases h1
        simp [bind, Except.bind]
      | ok qf =>
        rw [he1, hf1] at h1
        simp [Except.map] at h1
    | ok qe =>
      cases hf1 : runValidator v f ctx with
      | error err2 =>
        rw [he1, hf1] at h1
        simp [Except.map] at h1
      | ok qf =>
        rw [he1, hf1] at h1
        simp only [Except.map, Except.ok.injEq, Prod.mk.injEq, elemView] at h1
        simp only [bind, Except.bind]
        exact map_proj_bind_pure (runValidators rest qe.2 ctx) (runValidators rest qf.2 ctx)
          qe.1 qf.1 (ih qe.2 qf.2 h1.2.1 h1.2.2) h1.1

/-! ### The view of a mapping that `value` and the container validators read -/

/-- The per-entry data `Dict.value` can observe: the raw storage key and
the two elements' coerced values. -/
def entryView (kv : Raw × _Value) : Raw × Raw × Raw :=
  (kv.1, kv.2.key.value, kv.2.value.value)

theorem dict_get_entryView (es1 es2 : List (Raw × _Value))
    (h : es1.map entryView = es2.map entryView) (k : Raw) :
    ((dict_get es1 k).map fun ph => (ph.key.value, ph.value.value)) =
    ((dict_get es2 k).map fun ph => (ph.key.value, ph.value.value)) := by
  induction es1 generalizing es2 with
  | nil =>
    cases es2 with
    | nil => rfl
    | cons b bs => simp at h
  | cons a as ih =>
    cases es2 with
    | nil => simp at h
    | cons b bs =>
      simp only [List.map_cons, List.cons.injEq] at h
      obtain ⟨hab, hrest⟩ := h
      simp only [entryView, Prod.mk.injEq] at hab
      obtain ⟨h1, h2, h3⟩ := hab
      unfold dict_get
      by_cases hk : a.1 = k
      · rw [if_pos hk, if_pos (h1 ▸ hk)]
        simp [Option.map, h2, h3]
      · rw [if_neg hk, if_neg (fun hc => hk (h1 ▸ hc))]
        exact ih bs hrest

theorem valueLoop_congr (m1 m2 : Mapping)
    (hent : m1.entries.map entryView = m2.entries.map entryView) :
    ∀ (kes1 kes2 : List Element), kes1.map Element.value = kes2.map Element.value →
    ∀ acc, Dict.valueLoop m1 kes1 acc = Dict.valueLoop m2 kes2 acc := by
  intro kes1
  induction kes1 with
  | nil =>
    intro kes2 hk acc
    cases kes2 with
    | nil => rfl
    | cons b bs => simp at hk
  | cons ke1 rest1 ih =>
    intro kes2 hk acc
    cases kes2 with
    | nil => simp at hk
    | cons ke2 rest2 =>
      simp only [List.map_cons, List.cons.injEq] at hk
      obtain ⟨hke, hrest⟩ := hk
      unfold Dict.valueLoop
      unfold Mapping.getValueElem
      rw [hke]
      have hg := dict_get_entryView m1.entries m2.entries hent ke2.value
      cases hg1 : dict_get m1.entries ke2.value with
      | none =>
        cases hg2 : dict_get m2.entries ke2.value with
        | none => rfl
        | some ph2 => rw [hg1, hg2] at hg; simp [Option.map] at hg
      | some ph1 =>
        cases hg2 : dict_get m2.entries ke2.value with
        | none => rw [hg1, hg2] at hg; simp [Option.map] at hg
        | some ph2 =>
          rw [hg1, hg2] at hg
          simp only [Option.map, Option.some.injEq, Prod.mk.injEq] at hg
          show (if ke2.value = Raw.notUnserializable ∨ ph1.value.value = Raw.notUnserializable
              then Except.ok Raw.notUnserializable
              else Dict.valueLoop m1 rest1 (dict_set acc ke2.value ph1.value.value)) =
            (if ke2.value = Raw.notUnserializable ∨ ph2.value.value = Raw.notUnserializable
              then Except.ok Raw.notUnserializable
              else Dict.valueLoop m2 rest2 (dict_set acc ke2.value ph2.value.value))
          rw [hg.2]
          by_cases hbad : ke2.value = Raw.notUnserializable ∨ ph2.value.value = Raw.notUnserializable
          · rw [if_pos hbad, if_pos hbad]
          · rw [if_neg hbad, if_neg hbad]
            exact ih rest2 hrest (dict_set acc ke2.value ph2.value.value)

theorem Dict.value_congr (m1 m2 : Mapping) (hraw : m1.raw_value = m2.raw_value)
    (hent : m1.entries.map entryView = m2.entries.map entryView) :
    Dict.value m1 = Dict.value m2 := by
  have hkes : (Mapping.iterKeys m1).map Element.value = (Mapping.iterKeys m2).map Element.value := by
    unfold Mapping.iterKeys
    have := congrArg (List.map (fun t : Raw × Raw × Raw => t.2.1)) hent
    simpa [List.map_map, Function.comp, entryView] using this
  unfold Dict.value
  rw [hraw]
  cases m2.raw_value with
  | pairs l => exact valueLoop_congr m1 m2 hent (Mapping.iterKeys m1) (Mapping.iterKeys m2) hkes []
  | int n => rfl
  | str s => rfl
  | unspecified => rfl
  | notUnserializable => rfl

theorem Container.validate_congr (ctx : Context) (m1 m2 : Mapping)
    (hvl : m1.validators = m2.validators) (hraw : m1.raw_value = m2.raw_value)
    (herr : m1.errors = m2.errors)
    (hent : m1.entries.map entryView = m2.entries.map entryView) :
    Container.validate m1 ctx = Container.validate m2 ctx := by
  unfold Container.validate
  rw [hvl, herr]
  cases hc : m2.validators with
  | nil => rfl
  | cons v vl =>
    rw [Dict.value_congr m1 m2 hraw hent]
    cases hval : Dict.value m2 with
    | error err => rfl
    | ok w =>
      simp only [bind, Except.bind]
      have hcongr := runValidators_congr m2.validators
        ⟨m1.raw_value, w, m2.validators, m2.errors, m1.is_valid⟩
        ⟨m2.raw_value, w, m2.validators, m2.errors, m2.is_valid⟩ ctx rfl rfl
      rw [← hc]
      cases hr1 : runValidators m2.validators
          ⟨m1.raw_value, w, m2.validators, m2.errors, m1.is_valid⟩ ctx with
      | error err =>
        cases hr2 : runValidators m2.validators
            ⟨m2.raw_value, w, m2.validators, m2.errors, m2.is_valid⟩ ctx with
        | error err2 =>
          rw [hr1, hr2] at hcongr
          simp only [Except.map] at hcongr
          cases hcongr
          rfl
        | ok q2 =>
          rw [hr1, hr2] at hcongr
          simp [Except.map] at hcongr
      | ok q1 =>
        cases hr2 : runValidators m2.validators
            ⟨m2.raw_value, w, m2.validators, m2.errors, m2.is_valid⟩ ctx with
        | error err2 =>
          rw [hr1, hr2] at hcongr
          simp [Except.map] at hcongr
        | ok q2 =>
          rw [hr1, hr2] at hcongr
          simp only [Except.map, Except.ok.injEq, Prod.mk.injEq, elemView] at hcongr
          show (Except.ok (q1.1, q1.2.errors) : Except PyErr (Bool × List String))
            = Except.ok (q2.1, q2.2.errors)
          rw [hcongr.1, hcongr.2.2]

/-! ### The write-backs of `Mapping.validate` -/

theorem dict_get_setKeyElem_other (es : List (Raw × _Value)) (rk : Raw) (ke : Element)
    (k : Raw) (hne : k ≠ rk) :
    dict_get (dict_setKeyElem es rk ke) k = dict_get es k := by
  induction es with
  | nil => rfl
  | cons q rest ih =>
    obtain ⟨k', ph⟩ := q
    by_cases h : k' = rk
    · subst h
      have hne' : ¬(k' = k) := fun hc => hne hc.symm
      simp [dict_setKeyElem, dict_get, hne']
    · by_cases hk : k' = k
      · have hkr : ¬(k = rk) := hk ▸ h
        simp [dict_setKeyElem, dict_get, h, hk, hkr]
      · simp [dict_setKeyElem, dict_get, h, hk, ih]

theorem dict_get_setValElem_other (es : List (Raw × _Value)) (rk : Raw) (ve : Element)
    (k : Raw) (hne : k ≠ rk) :
    dict_get (dict_setValElem es rk ve) k = dict_get es k := by
  induction es with
  | nil => rfl
  | cons q rest ih =>
    obtain ⟨k', ph⟩ := q
    by_cases h : k' = rk
    · subst h
      have hne' : ¬(k' = k) := fun hc => hne hc.symm
      simp [dict_setValElem, dict_get, hne']
    · by_cases hk : k' = k
      · have hkr : ¬(k = rk) := hk ▸ h
        simp [dict_setValElem, dict_get, h, hk, hkr]
      · simp [dict_setValElem, dict_get, h, hk, ih]

/-- Replacing a key element leaves every entry's value slot unchanged. -/
theorem dict_get_setKeyElem_valueSlot (es : List (Raw × _Value)) (rk : Raw) (ke : Element)
    (k : Raw) :
    (dict_get (dict_setKeyElem es rk ke) k).map (fun ph => ph.value) =
    (dict_get es k).map (fun ph => ph.value) := by
  induction es with
  | nil => rfl
  | cons q rest ih =>
    obtain ⟨k', ph⟩ := q
    by_cases h : k' = rk
    · subst h
      by_cases hk : k' = k
      · simp [dict_setKeyElem, dict_get, hk]
      · simp [dict_setKeyElem, dict_get, hk]
    · by_cases hk : k' = k
      · have hkr : ¬(k = rk) := hk ▸ h
        simp [dict_setKeyElem, dict_get, h, hk, hkr]
      · simp [dict_setKeyElem, dict_get, h, hk, ih]

/-- Writing back a validated key element (same coerced value as the one it
replaces) preserves every entry's view. -/
theorem dict_setKeyElem_view (es : List (Raw × _Value)) (rk : Raw) (ke : Element)
    (h : ∀ ph, dict_get es rk = some ph → ke.value = ph.key.value) :
    (dict_setKeyElem es rk ke).map entryView = es.map entryView := by
  induction es with
  | nil => rfl
  | cons q rest ih =>
    obtain ⟨k', ph⟩ := q
    by_cases hk : k' = rk
    · subst hk
      have hv := h ph (by simp [dict_get])
      simp [dict_setKeyElem, entryView, hv]
    · simp only [dict_setKeyElem, if_neg hk, List.map_cons]
      rw [ih fun ph0 hph0 => h ph0 (by simpa [dict_get, hk] using hph0)]

/-- Writing back a validated value element (same coerced value as the one
it replaces) preserves every entry's view. -/
theorem dict_setValElem_view (es : List (Raw × _Value)) (rk : Raw) (ve : Element)
    (h : ∀ ph, dict_get es rk = some ph → ve.value = ph.value.value) :
    (dict_setValElem es rk ve).map entryView = es.map entryView := by
  induction es with
  | nil => rfl
  | cons q rest ih =>
    obtain ⟨k', ph⟩ := q
    by_cases hk : k' = rk
    · subst hk
      have hv := h ph (by simp [dict_get])
      simp [dict_setValElem, entryView, hv]
    · simp only [dict_setValElem, if_neg hk, List.map_cons]
      rw [ih fun ph0 hph0 => h ph0 (by simpa [dict_get, hk] using hph0)]

/-- The `validate` loop only touches element validity flags and error
lists: it preserves the container's raw value, validators, errors,
validity flag and the view (raw keys, coerced values) of every entry. -/
theorem validateStep_preserves (ctx : Context) (ks : List Raw) :
    ∀ (m : Mapping) (acc b : Bool) (m' : Mapping),
      Mapping.validateStep ctx ks m acc = Except.ok (b, m') →
      m'.raw_value = m.raw_value ∧ m'.validators = m.validators ∧ m'.errors = m.errors ∧
        m'.is_valid = m.is_valid ∧ m'.entries.map entryView = m.entries.map entryView := by
  induction ks with
  | nil =>
    intro m acc b m' h
    have h' : (Except.ok (acc, m) : Except PyErr (Bool × Mapping)) = Except.ok (b, m') := h
    cases h'
    exact ⟨rfl, rfl, rfl, rfl, rfl⟩
  | cons rk rest ih =>
    intro m acc b m' h
    unfold Mapping.validateStep at h
    split at h
    · cases h
    · rename_i ph hget
      split at h
      · cases h
      · rename_i ve hgv
        cases hk : Element.validate ph.key ctx with
        | error err =>
          rw [hk] at h
          simp only [bind, Except.bind] at h
          cases h
        | ok qk =>
          rw [hk] at h
          simp only [bind, Except.bind] at h
          cases hv : Element.validate ve ctx with
          | error err =>
            rw [hv] at h
            simp only [bind, Except.bind] at h
            cases h
          | ok qv =>
            rw [hv] at h
            simp only [bind, Except.bind] at h
            obtain ⟨r1, r2, r3, r4, r5⟩ := ih _ _ _ _ h
            obtain ⟨pk1, _, _, _⟩ := Element.validate_fields ph.key ctx qk.1 qk.2 (by rw [hk])
            obtain ⟨pv1, _, _, _⟩ := Element.validate_fields ve ctx qv.1 qv.2 (by rw [hv])
            have hkview : (dict_setKeyElem m.entries rk qk.2).map entryView
                = m.entries.map entryView := by
              apply dict_setKeyElem_view
              intro ph0 hph0
              rw [hget] at hph0
              cases hph0
              exact pk1
            have hvview : (dict_setValElem (dict_setKeyElem m.entries rk qk.2)
                  ph.key.value qv.2).map entryView
                = (dict_setKeyElem m.entries rk qk.2).map entryView := by
              apply dict_setValElem_view
              intro ph0 hph0
              have hslot := dict_get_setKeyElem_valueSlot m.entries rk qk.2 ph.key.value
              rw [hph0] at hslot
              unfold Mapping.getValueElem at hgv
              cases hgm : dict_get m.entries ph.key.value with
              | none =>
                rw [hgm] at hgv
                simp [Option.map] at hgv
              | some ph1 =>
                rw [hgm] at hslot hgv
                simp only [Option.map, Option.some.injEq] at hslot hgv
                rw [pv1, ← hgv, hslot]
            exact ⟨r1, r2, r3, r4, r5.trans (hvview.trans hkview)⟩

/-- Per-entry validation stated independently of the container: each
entry's key element's `validate` boolean ANDed with its value element's,
over all entries in order (the first raised error propagates). -/
def validateEntriesSpec (ctx : Context) : List _Value → Except PyErr Bool
  | [] => Except.ok true
  | ph :: rest => do
    let bk ← Element.validateB ph.key ctx
    let bv ← Element.validateB ph.value ctx
    let br ← validateEntriesSpec ctx rest
    return bk && bv && br

/-- Under distinct raw keys and the lookup precondition, a successful
`validate` loop computes the AND of the per-entry validations. -/
theorem validateStep_spec (ctx : Context) :
    ∀ (suf : List (Raw × _Value)) (m : Mapping) (acc b : Bool) (m' : Mapping),
      ((suf.map fun kv => kv.1).Nodup) →
      (∀ kv ∈ suf, dict_get m.entries kv.1 = some kv.2 ∧ kv.2.key.value = kv.1) →
      Mapping.validateStep ctx (suf.map fun kv => kv.1) m acc = Except.ok (b, m') →
      ∃ B, validateEntriesSpec ctx (suf.map fun kv => kv.2) = Except.ok B ∧ b = (acc && B) := by
  intro suf
  induction suf with
  | nil =>
    intro m acc b m' hnd hsub h
    have h' : (Except.ok (acc, m) : Except PyErr (Bool × Mapping)) = Except.ok (b, m') := h
    cases h'
    exact ⟨true, rfl, by simp⟩
  | cons kv rest ih =>
    intro m acc b m' hnd hsub h
    obtain ⟨hget, hkey⟩ := hsub kv (List.mem_cons_self kv rest)
    have hgv : Mapping.getValueElem m kv.2.key.value = some kv.2.value := by
      unfold Mapping.getValueElem
      rw [hkey, hget]
      rfl
    rw [List.map_cons] at h
    unfold Mapping.validateStep at h
    split at h
    · cases h
    · rename_i ph0 hget0
      rw [hget] at hget0
      cases hget0
      split at h
      · rename_i hgv0
        rw [hgv] at hgv0
        cases hgv0
      · rename_i ve0 hgv0
        rw [hgv] at hgv0
        cases hgv0
        cases hk : Element.validate kv.2.key ctx with
        | error err =>
          rw [hk] at h
          simp only [bind, Except.bind] at h
          cases h
        | ok qk =>
          rw [hk] at h
          simp only [bind, Except.bind] at h
          cases hv : Element.validate kv.2.value ctx with
          | error err =>
            rw [hv] at h
            simp only [bind, Except.bind] at h
            cases h
          | ok qv =>
            rw [hv] at h
            simp only [bind, Except.bind] at h
            simp only [List.map_cons, List.nodup_cons] at hnd
            have hne : ∀ r ∈ rest, r.1 ≠ kv.1 := by
              intro r hr hc
              exact hnd.1 (hc ▸ List.mem_map_of_mem _ hr)
            have hsubr : ∀ r ∈ rest,
                dict_get (dict_setValElem (dict_setKeyElem m.entries kv.1 qk.2)
                  kv.2.key.value qv.2) r.1 = some r.2 ∧ r.2.key.value = r.1 := by
              intro r hr
              obtain ⟨hgr, hkr⟩ := hsub r (List.mem_cons_of_mem _ hr)
              refine ⟨?_, hkr⟩
              rw [dict_get_setValElem_other _ _ _ _ (hkey ▸ hne r hr),
                dict_get_setKeyElem_other _ _ _ _ (hne r hr)]
              exact hgr
            obtain ⟨B, hB, hbB⟩ := ih _ (acc && qk.1 && qv.1) b m' hnd.2 hsubr h
            refine ⟨qk.1 && qv.1 && B, ?_, ?_⟩
            · have hkB : Element.validateB kv.2.key ctx = Except.ok qk.1 := by
                unfold Element.validateB
                rw [hk]
                rfl
              have hvB : Element.validateB kv.2.value ctx = Except.ok qv.1 := by
                unfold Element.validateB
                rw [hv]
                rfl
              rw [List.map_cons]
              unfold validateEntriesSpec
              rw [hkB]
              simp only [bind, Except.bind]
              rw [hvB]
              simp only [bind, Except.bind]
              rw [hB]
              simp only [bind, Except.bind, pure, Except.pure]
            · rw [hbB]
              simp [Bool.and_assoc]

/-- The per-entry aggregate is `true` exactly when every key and value
element validates to `true`. -/
theorem validateEntriesSpec_true_iff (ctx : Context) :
    ∀ (phs : List _Value) (B : Bool), validateEntriesSpec ctx phs = Except.ok B →
      (B = true ↔ ∀ ph ∈ phs, Element.validateB ph.key ctx = Except.ok true ∧
        Element.validateB ph.value ctx = Except.ok true) := by
  intro phs
  induction phs with
  | nil =>
    intro B h
    have h' : (Except.ok true : Except PyErr Bool) = Except.ok B := h
    cases h'
    simp
  | cons ph rest ih =>
    intro B h
    unfold validateEntriesSpec at h
    cases hk : Element.validateB ph.key ctx with
    | error e =>
      rw [hk] at h
      simp only [bind, Except.bind] at h
      cases h
    | ok bk =>
      rw [hk] at h
      simp only [bind, Except.bind] at h
      cases hv : Element.validateB ph.value ctx with
      | error e =>
        rw [hv] at h
        simp only [bind, Except.bind] at h
        cases h
      | ok bv =>
        rw [hv] at h
        simp only [bind, Except.bind] at h
        cases hr : validateEntriesSpec ctx rest with
        | error e =>
          rw [hr] at h
          simp only [bind, Except.bind] at h
          cases h
        | ok br =>
          rw [hr] at h
          simp only [bind, Except.bind, pure, Except.pure, Except.ok.injEq] at h
          subst h
          constructor
          · intro htrue
            simp only [Bool.and_eq_true] at htrue
            intro p hp
            rcases List.mem_cons.mp hp with hph | hph
            · subst hph
              exact ⟨by rw [hk, htrue.1.1], by rw [hv, htrue.1.2]⟩
            · exact ((ih br hr).mp htrue.2) p hph
          · intro hall
            simp only [Bool.and_eq_true]
            obtain ⟨hk1, hv1⟩ := hall ph (List.mem_cons_self ph rest)
            rw [hk] at hk1
            rw [hv] at hv1
            cases hk1
            cases hv1
            exact ⟨⟨rfl, rfl⟩,
              (ih br hr).mpr fun p hp => hall p (List.mem_cons_of_mem _ hp)⟩

/-- C3: for every mapping whose stored key elements coerce back to their
raw storage keys, and every context, a successful `validate(context)`
call returns, and stores into `is_valid`, the logical AND of every key
element's `validate`, every value element's `validate`, and the
container's own attached validators; the computation re-initialises
`is_valid` to `True` at the start of each call, so the result is
identical whatever validity state a previous call left behind. -/
theorem C3_validate_aggregate (m : Mapping) (ctx : Context) (b0 : Option Bool)
    (p : Bool × Mapping) (hnd : keysNodup m) (hsafe : lookupSafe m)
    (hok : Mapping.validate m ctx = Except.ok p) :
    Mapping.validate { m with is_valid := b0 } ctx = Except.ok p ∧
    p.2.is_valid = some p.1 ∧
    (p.1 = true ↔
      ((∀ kv ∈ m.entries, Element.validateB kv.2.key ctx = Except.ok true ∧
          Element.validateB kv.2.value ctx = Except.ok true) ∧
        (Container.validate m ctx).map (fun q => q.1) = Except.ok true)) := by
  refine ⟨hok, ?_⟩
  unfold Mapping.validate at hok
  cases hstep : Mapping.validateStep ctx (m.entries.map fun kv => kv.1)
      { m with is_valid := some true } true with
  | error err =>
    rw [hstep] at hok
    simp only [bind, Except.bind] at hok
    cases hok
  | ok q =>
    rw [hstep] at hok
    simp only [bind, Except.bind] at hok
    cases hcont : Container.validate q.2 ctx with
    | error err =>
      rw [hcont] at hok
      simp only [bind, Except.bind] at hok
      cases hok
    | ok c =>
      rw [hcont] at hok
      simp only [bind, Except.bind, pure, Except.pure, Except.ok.injEq] at hok
      subst hok
      refine ⟨rfl, ?_⟩
      obtain ⟨r1, r2, r3, r4, r5⟩ := validateStep_preserves ctx _ _ _ _ _ hstep
      have hcc : Container.validate q.2 ctx = Container.validate m ctx :=
        Container.validate_congr ctx q.2 m (r2.trans rfl) (r1.trans rfl) (r3.trans rfl)
          (r5.trans rfl)
      have hcontm : Container.validate m ctx = Except.ok c := by
        rw [← hcc]
        exact hcont
      have hsub : ∀ kv ∈ m.entries,
          dict_get ({ m with is_valid := some true } : Mapping).entries kv.1 = some kv.2 ∧
            kv.2.key.value = kv.1 := by
        intro kv hkv
        exact ⟨dict_get_mem_nodup m.entries kv hkv hnd, hsafe kv hkv⟩
      obtain ⟨B, hB, hbB⟩ := validateStep_spec ctx m.entries
        { m with is_valid := some true } true q.1 q.2 hnd hsub hstep
      have hBiff := validateEntriesSpec_true_iff ctx (m.entries.map fun kv => kv.2) B hB
      rw [hbB]
      simp only [Bool.true_and]
      rw [hcontm]
      simp only [Except.map, Except.ok.injEq]
      rw [Bool.and_eq_true]
      constructor
      · rintro ⟨hBt, hct⟩
        refine ⟨?_, by rw [hct]⟩
        intro kv hkv
        exact (hBiff.mp hBt) kv.2 (List.mem_map_of_mem _ hkv)
      · rintro ⟨hall, hct⟩
        refine ⟨hBiff.mpr ?_, hct⟩
        intro ph hph
        obtain ⟨kv, hkv, rfl⟩ := List.mem_map.mp hph
        exact hall kv hkv

/-- A demo mapping for the validation aggregate:
`Dict.of(Unicode-with-ShorterThan(1), Integer)` on `{"a": 1}` (the key
element fails its own validator) with a failing `ContainedIn([5])`
validator attached to the container. -/
def demoValidated : Mapping :=
  { Dict.set { Unicode with validators := [VSpec.shorterThan 1] } Integer initMapping
      (Raw.pairs [(Raw.str "a", Raw.int 1)]) with
    validators := [VSpec.containedIn [Raw.int 5]] }

/-- C3 witness: on the demo mapping (one failing child validator, one
failing container validator) a `validate` call that starts from a stale
`is_valid = True` still recomputes and stores the aggregate `False`. -/
theorem C3_validate_aggregate_witness :
    keysNodup demoValidated ∧ lookupSafe demoValidated ∧
    (Mapping.validate { demoValidated with is_valid := some true } []).map
        (fun q => (q.1, q.2.is_valid)) = Except.ok (false, some false) := by
  refine ⟨by decide, by decide, ?_⟩
  have h := C3_validate_aggregate demoValidated [] (some true) _ (by decide) (by decide) rfl
  rw [h.1]
  rfl

end Relief
